import Mathlib

/-!
Verification of the elit dependency-graph data model, TSV reader and
trainable-model framework (files `elit/structure.py`, `elit/reader.py`,
`elit/component/template/model.py`), as a shallow embedding in Lean 4.

Python objects with identity are embedded as records addressed by their
index in a list (the "heap"): two distinct nodes with equal `node_id`
remain distinct, matching Python's identity-based `__eq__`/`__hash__` and
`node_id`-based `__lt__`.  Fallible Python code (KeyError, IndexError,
NameError, ValueError) is embedded with `Except String`.
-/

namespace Elit

/-- Decidable equality of `Except` results, so that concrete runs of the
fallible embedded operations can be checked by `decide`. -/
instance {ε α : Type} [DecidableEq ε] [DecidableEq α] : DecidableEq (Except ε α) := fun x y =>
  match x, y with
  | .ok a, .ok b =>
    if h : a = b then .isTrue (congrArg Except.ok h)
    else .isFalse (fun hc => h (Except.ok.inj hc))
  | .error a, .error b =>
    if h : a = b then .isTrue (congrArg Except.error h)
    else .isFalse (fun hc => h (Except.error.inj hc))
  | .ok _, .error _ => .isFalse (fun hc => Except.noConfusion hc)
  | .error _, .ok _ => .isFalse (fun hc => Except.noConfusion hc)

/-- The reserved blank-field marker `_` of the wire format. -/
def BLANK : String := "_"

/-- The reserved root marker string `@#r$%`. -/
def ROOT_TAG : String := "@#r$%"

/-- One token (or the synthetic root).  Mirrors `NLPNode.__init__`:
`word`/`lemma`/`pos`/`nament` are `None`-able strings, `feats` is a dict
(`none` embeds Python `None`, `some []` embeds the empty dict `{}`),
relations hold heap indices (object identities), and `deprels` is the
dict from governor identity to dependency label. -/
structure NLPNode where
  node_id : Int
  word : Option String
  lemma' : Option String
  pos : Option String
  nament : Option String
  feats : Option (List (String × String))
  parent : Option Nat
  children : List Nat
  secondary_parents : List Nat
  secondary_children : List Nat
  deprels : List (Nat × String)
deriving Repr, DecidableEq

/-- The default `NLPNode()` constructor: `node_id = -1`, absent surface
fields, empty feats dict, no relations. -/
instance : Inhabited NLPNode :=
  ⟨{ node_id := -1, word := none, lemma' := none, pos := none, nament := none,
     feats := some [], parent := none, children := [], secondary_parents := [],
     secondary_children := [], deprels := [] }⟩

/-- The heap of node objects; a node's identity is its index. -/
abbrev Heap := List NLPNode

/-- Dereference an identity (out-of-range yields the default node; all
verified operations stay in range). -/
def nd (h : Heap) (i : Nat) : NLPNode := h.getD i default

/-- The ordering key used by every positional query: `NLPNode.__lt__`
compares `node_id`. -/
def key (h : Heap) (i : Nat) : Int := (nd h i).node_id

/-- Replace the node stored at identity `i` (no-op out of range, like
`List.set`). -/
def modifyNode (h : Heap) (i : Nat) (f : NLPNode → NLPNode) : Heap :=
  h.set i (f (nd h i))

/-- Modelled from the spec: the sorted-sequence boundary utility
`elit.util.bisect.bisect_left` (its source is not in the repository
snapshot) — leftmost insertion-point search over a sequence ordered by
`node_id`, given the key of the probe. -/
def bisect_left (κ : Nat → Int) (l : List Nat) (k : Int) : Nat :=
  (l.takeWhile (fun x => κ x < k)).length

/-- Modelled from the spec: `elit.util.bisect.bisect_right` — rightmost
insertion-point search over a sequence ordered by `node_id`. -/
def bisect_right (κ : Nat → Int) (l : List Nat) (k : Int) : Nat :=
  (l.takeWhile (fun x => κ x ≤ k)).length

/-- Modelled from the spec: `elit.util.bisect.insort_right` —
order-preserving insertion at the rightmost admissible position. -/
def insort_right (κ : Nat → Int) (l : List Nat) (x : Nat) : List Nat :=
  match l with
  | [] => [x]
  | a :: t => if κ x < κ a then x :: a :: t else a :: insort_right κ t x

/-- Modelled from the spec: `elit.util.bisect.bisect_remove` —
identity-based removal from the sequence (removes the element that is
the same object, not merely one with an equal key). -/
def bisect_remove (l : List Nat) (x : Nat) : List Nat :=
  l.erase x

/-- Modelled from the spec: `elit.util.bisect.bisect_index` —
identity-based index lookup, `-1` when absent. -/
def bisect_index (l : List Nat) (x : Nat) : Int :=
  match l.indexOf? x with
  | some i => (i : Int)
  | none => -1

/-- Python truthiness of an optional label: `None` and `""` are falsy. -/
def labelFalsy (label : Option String) : Bool :=
  match label with
  | none => true
  | some s => s == ""

/-- Set or replace an entry of an insertion-ordered dict. -/
def dictSet (d : List (Nat × String)) (k : Nat) (v : String) : List (Nat × String) :=
  match d with
  | [] => [(k, v)]
  | (k', v') :: t => if k' = k then (k, v) :: t else (k', v') :: dictSet t k v

/-- Remove an entry of a dict, failing like `del d[k]` when absent. -/
def dictDel (d : List (Nat × String)) (k : Nat) : Except String (List (Nat × String)) :=
  match d with
  | [] => .error "KeyError"
  | (k', v') :: t =>
    if k' = k then .ok t
    else
      match dictDel t k with
      | .error e => .error e
      | .ok t' => .ok ((k', v') :: t')

/-- Remove an entry if present, like `d.pop(k, None)`. -/
def dictPop (d : List (Nat × String)) (k : Nat) : List (Nat × String) :=
  match d with
  | [] => []
  | (k', v') :: t => if k' = k then t else (k', v') :: dictPop t k

/-- `NLPNode.get_dependency_label`: defaulting the governor to the
primary parent, then a dict lookup (absent governor yields absent). -/
def get_dependency_label (h : Heap) (i : Nat) (node : Option Nat) : Option String :=
  let n := nd h i
  match (match node with | none => n.parent | some x => some x) with
  | none => none
  | some p => (n.deprels.lookup p)

/-- `NLPNode.set_dependency_label`: record the label for governor
`node`; a falsy (absent or empty) label is a no-op. -/
def set_dependency_label (h : Heap) (i : Nat) (node : Nat) (label : Option String) : Heap :=
  match label with
  | none => h
  | some s =>
    if s = "" then h
    else modifyNode h i (fun n => { n with deprels := dictSet n.deprels node s })

/-- The detachment block of `NLPNode.set_parent` ("handle the previous
PARENT"): if a parent exists, remove self from its children by identity
and `del` the dependency-label entry keyed by it — a KeyError when no
label was stored there. -/
def detach_prev (h : Heap) (i : Nat) : Except String Heap :=
  match (nd h i).parent with
  | none => .ok h
  | some p =>
    let ha := modifyNode h p (fun n => { n with children := bisect_remove n.children i })
    match dictDel (nd ha i).deprels p with
    | .error e => .error e
    | .ok d' => .ok (modifyNode ha i (fun n => { n with deprels := d' }))

/-- `NLPNode.set_parent`: detach from the current parent if any, then
set `parent`, and if a new parent is given insert self into its children
preserving sort order and record the label if truthy. -/
def set_parent (h : Heap) (i : Nat) (node : Option Nat) (label : Option String) :
    Except String Heap :=
  match detach_prev h i with
  | .error e => .error e
  | .ok h1 =>
    let h2 := modifyNode h1 i (fun n => { n with parent := node })
    match node with
    | none => .ok h2
    | some q =>
      let h3 := modifyNode h2 q
        (fun n => { n with children := insort_right (key h2) n.children i })
      .ok (set_dependency_label h3 i q label)

/-- `NLPNode.add_secondary_parent`: sorted insertion into both
`secondary_parents` and the governor's `secondary_children`, then
record the label. -/
def add_secondary_parent (h : Heap) (i : Nat) (node : Nat) (label : Option String) : Heap :=
  let h1 := modifyNode h i
    (fun n => { n with secondary_parents := insort_right (key h) n.secondary_parents node })
  let h2 := modifyNode h1 node
    (fun n => { n with secondary_children := insort_right (key h1) n.secondary_children i })
  set_dependency_label h2 i node label

/-- `NLPNode.remove_secondary_parent`: identity-based removal (when
present) together with `deprels.pop(node, None)`; returns whether a
removal occurred. -/
def remove_secondary_parent (h : Heap) (i : Nat) (node : Nat) : Heap × Bool :=
  if 0 ≤ bisect_index (nd h i).secondary_parents node then
    (modifyNode h i (fun n =>
      { n with
        secondary_parents :=
          n.secondary_parents.eraseIdx (bisect_index (nd h i).secondary_parents node).toNat,
        deprels := dictPop n.deprels node }), true)
  else (h, false)

/-- The relation-mutating operations of `NLPNode` (§4.1 of the spec). -/
inductive Op where
  | setParent (i : Nat) (node : Option Nat) (label : Option String)
  | addSecondaryParent (i : Nat) (node : Nat) (label : Option String)
  | removeSecondaryParent (i : Nat) (node : Nat)
  | setDependencyLabel (i : Nat) (node : Nat) (label : Option String)
deriving Repr, DecidableEq

/-- All identities mentioned by an operation are in range. -/
def Op.Wf (n : Nat) : Op → Prop
  | .setParent i node _ => i < n ∧ ∀ q, node = some q → q < n
  | .addSecondaryParent i node _ => i < n ∧ node < n
  | .removeSecondaryParent i node => i < n ∧ node < n
  | .setDependencyLabel i node _ => i < n ∧ node < n

instance (n : Nat) (op : Op) : Decidable (op.Wf n) := by
  cases op <;> simp only [Op.Wf] <;> infer_instance

/-- Apply one relation-mutating operation. -/
def applyOp (h : Heap) : Op → Except String Heap
  | .setParent i node label => set_parent h i node label
  | .addSecondaryParent i node label => .ok (add_secondary_parent h i node label)
  | .removeSecondaryParent i node => .ok (remove_secondary_parent h i node).1
  | .setDependencyLabel i node label => .ok (set_dependency_label h i node label)

/-- Apply a sequence of relation-mutating operations, stopping at the
first failure. -/
def runOps (h : Heap) : List Op → Except String Heap
  | [] => .ok h
  | op :: ops =>
    match applyOp h op with
    | .error e => .error e
    | .ok h' => runOps h' ops

/-- `NLPNode.root()`: the canonical root node. -/
def rootNode : NLPNode :=
  { node_id := 0, word := some ROOT_TAG, lemma' := some ROOT_TAG, pos := some ROOT_TAG,
    nament := some ROOT_TAG, feats := some [], parent := none, children := [],
    secondary_parents := [], secondary_children := [], deprels := [] }

/-- `NLPGraph.__init__`: prepend the artificial root to the given nodes. -/
def mkGraph (nodes : List NLPNode) : Heap :=
  rootNode :: nodes

/-- `NLPGraph.__len__`: the root is excluded from the reported length. -/
def graph_len (g : Heap) : Nat :=
  g.length - 1

/-- `NLPGraph.__iter__`: `islice(self.nodes, 1, len(self.nodes))` — the
real tokens, root excluded, in order. -/
def graph_iter (g : Heap) : List NLPNode :=
  (g.drop 1).take (g.length - 1)

/-- Python's guarded positional access `l[idx] if 0 <= idx < len(l) else
None`, shared by the "nearest" queries. -/
def queryAt (l : List Nat) (idx : Int) : Option Nat :=
  if 0 ≤ idx ∧ idx < l.length then some (l.getD idx.toNat 0) else none

/-- Guarded positional access that additionally requires the found node
to lie strictly left of the probe: `l[idx] if 0 <= idx < len(l) and
l[idx] < self else None`. -/
def queryAtLt (h : Heap) (l : List Nat) (idx : Int) (selfKey : Int) : Option Nat :=
  if 0 ≤ idx ∧ idx < l.length ∧ key h (l.getD idx.toNat 0) < selfKey then
    some (l.getD idx.toNat 0)
  else none

/-- Guarded positional access requiring the found node strictly right of
the probe. -/
def queryAtGt (h : Heap) (l : List Nat) (idx : Int) (selfKey : Int) : Option Nat :=
  if 0 ≤ idx ∧ idx < l.length ∧ selfKey < key h (l.getD idx.toNat 0) then
    some (l.getD idx.toNat 0)
  else none

/-- `NLPNode.get_leftmost_child`: `idx = order` into `self.children`,
returned only when strictly left of self. -/
def get_leftmost_child (h : Heap) (i : Nat) (order : Nat) : Option Nat :=
  queryAtLt h (nd h i).children (order : Int) (key h i)

/-- `NLPNode.get_rightmost_child`: `idx = len(self.children) - 1 - order`,
returned only when strictly right of self. -/
def get_rightmost_child (h : Heap) (i : Nat) (order : Nat) : Option Nat :=
  queryAtGt h (nd h i).children (((nd h i).children.length : Int) - 1 - (order : Int)) (key h i)

/-- `NLPNode.get_left_nearest_child`:
`idx = bisect_left(self.children, self) - 1 - order`. -/
def get_left_nearest_child (h : Heap) (i : Nat) (order : Nat) : Option Nat :=
  queryAt (nd h i).children
    ((bisect_left (key h) (nd h i).children (key h i) : Int) - 1 - (order : Int))

/-- `NLPNode.get_right_nearest_child`:
`idx = bisect_right(self.children, self) + order`. -/
def get_right_nearest_child (h : Heap) (i : Nat) (order : Nat) : Option Nat :=
  queryAt (nd h i).children
    ((bisect_right (key h) (nd h i).children (key h i) : Int) + (order : Int))

/-- `NLPNode.get_leftmost_sibling`: `idx = order` into
`self.parent.children` (absent without a parent). -/
def get_leftmost_sibling (h : Heap) (i : Nat) (order : Nat) : Option Nat :=
  match (nd h i).parent with
  | none => none
  | some p => queryAtLt h (nd h p).children (order : Int) (key h i)

/-- `NLPNode.get_rightmost_sibling` as written in the source: the index
`len(self.children) - 1 - order` is computed from SELF's children
sequence, then bounds-checked against and used to index
`self.parent.children`. -/
def get_rightmost_sibling (h : Heap) (i : Nat) (order : Nat) : Option Nat :=
  match (nd h i).parent with
  | none => none
  | some p =>
    queryAtGt h (nd h p).children (((nd h i).children.length : Int) - 1 - (order : Int)) (key h i)

/-- `NLPNode.get_left_nearest_sibling`:
`idx = bisect_left(self.parent.children, self) - 1 - order`. -/
def get_left_nearest_sibling (h : Heap) (i : Nat) (order : Nat) : Option Nat :=
  match (nd h i).parent with
  | none => none
  | some p =>
    queryAt (nd h p).children
      ((bisect_left (key h) (nd h p).children (key h i) : Int) - 1 - (order : Int))

/-- `NLPNode.get_right_nearest_sibling` as written in the source: note
the extra `+ 1` versus the child-side query,
`idx = bisect_right(self.parent.children, self) + 1 + order`. -/
def get_right_nearest_sibling (h : Heap) (i : Nat) (order : Nat) : Option Nat :=
  match (nd h i).parent with
  | none => none
  | some p =>
    queryAt (nd h p).children
      ((bisect_right (key h) (nd h p).children (key h i) : Int) + 1 + (order : Int))

/-- Modelled from the spec: the claimed semantics of
`get_leftmost_sibling` — the child-side leftmost query computed over
`self.parent.children`. -/
def sib_spec_leftmost (h : Heap) (i : Nat) (order : Nat) : Option Nat :=
  match (nd h i).parent with
  | none => none
  | some p => queryAtLt h (nd h p).children (order : Int) (key h i)

/-- Modelled from the spec: the claimed semantics of
`get_rightmost_sibling` — the `order`-th element counted from the right
end of `self.parent.children`, provided it lies strictly right of self. -/
def sib_spec_rightmost (h : Heap) (i : Nat) (order : Nat) : Option Nat :=
  match (nd h i).parent with
  | none => none
  | some p =>
    queryAtGt h (nd h p).children (((nd h p).children.length : Int) - 1 - (order : Int)) (key h i)

/-- Modelled from the spec: the claimed semantics of
`get_left_nearest_sibling` — the child-side left-nearest query over
`self.parent.children`. -/
def sib_spec_left_nearest (h : Heap) (i : Nat) (order : Nat) : Option Nat :=
  match (nd h i).parent with
  | none => none
  | some p =>
    queryAt (nd h p).children
      ((bisect_left (key h) (nd h p).children (key h i) : Int) - 1 - (order : Int))

/-- Modelled from the spec: the claimed semantics of
`get_right_nearest_sibling` — the child-side right-nearest query over
`self.parent.children`, `idx = bisect_right + order`. -/
def sib_spec_right_nearest (h : Heap) (i : Nat) (order : Nat) : Option Nat :=
  match (nd h i).parent with
  | none => none
  | some p =>
    queryAt (nd h p).children
      ((bisect_right (key h) (nd h p).children (key h i) : Int) + (order : Int))

/-- Shorthand for a token node carrying only structural data. -/
def mkTok (id : Int) (parent : Option Nat) (children : List Nat)
    (deprels : List (Nat × String)) : NLPNode :=
  { (default : NLPNode) with
      node_id := id, parent := parent, children := children, deprels := deprels }

/-- A parent (identity 0, `node_id` 0) with two attached children: node 1
(`node_id` 1, itself childless) and node 2 (`node_id` 2). -/
def c5heap : Heap :=
  [ mkTok 0 none [1, 2] [],
    mkTok 1 (some 0) [] [(0, "a")],
    mkTok 2 (some 0) [] [(0, "b")] ]

/-- A parent with two children where node 1 itself also has two children
(nodes 3 and 4), so self's and parent's children counts agree. -/
def c5w : Heap :=
  [ mkTok 0 none [1, 2] [],
    mkTok 1 (some 0) [3, 4] [(0, "a")],
    mkTok 2 (some 0) [] [(0, "b")],
    mkTok 3 (some 1) [] [(1, "c")],
    mkTok 4 (some 1) [] [(1, "d")] ]

/-- The five-sibling scenario of C6: a parent (identity 0) whose
`node_id` is `k`, with five attached children of `node_id` 1..5. -/
def heapFive (k : Int) : Heap :=
  [ mkTok k none [1, 2, 3, 4, 5] [],
    mkTok 1 (some 0) [] [(0, "l")],
    mkTok 2 (some 0) [] [(0, "l")],
    mkTok 3 (some 0) [] [(0, "l")],
    mkTok 4 (some 0) [] [(0, "l")],
    mkTok 5 (some 0) [] [(0, "l")] ]

/-- The same scenario before any attachment. -/
def initFive (k : Int) : Heap :=
  [ mkTok k none [] [], mkTok 1 none [] [], mkTok 2 none [] [],
    mkTok 3 none [] [], mkTok 4 none [] [], mkTok 5 none [] [] ]

/-- The attachment sequence building `heapFive`. -/
def fiveOps : List Op :=
  [ .setParent 1 (some 0) (some "l"), .setParent 2 (some 0) (some "l"),
    .setParent 3 (some 0) (some "l"), .setParent 4 (some 0) (some "l"),
    .setParent 5 (some 0) (some "l") ]

/-- The children/parent consistency invariant of the data model: every
node's children sequence contains exactly the nodes whose parent is that
node, without duplicates, sorted ascending by `node_id`, with every
member in range. -/
def childrenInv (h : Heap) : Prop :=
  ∀ i, i < h.length →
    (nd h i).children.Nodup ∧
    List.Pairwise (fun a b => key h a ≤ key h b) (nd h i).children ∧
    (∀ j ∈ (nd h i).children, j < h.length) ∧
    (∀ j, j < h.length → (j ∈ (nd h i).children ↔ (nd h j).parent = some i))

instance (h : Heap) : Decidable (childrenInv h) := by
  unfold childrenInv
  infer_instance

/-- Two heaps agreeing on length and on every node's children, parent
and ordering key (only label or secondary-link bookkeeping differs). -/
def Pres (h h' : Heap) : Prop :=
  h'.length = h.length ∧
  (∀ j, (nd h' j).children = (nd h j).children) ∧
  (∀ j, (nd h' j).parent = (nd h j).parent) ∧
  (∀ j, key h' j = key h j)

/-- The two-node scenario of C2: node A (identity 0, `node_id` 1) and
node B (identity 1, `node_id` 2), unattached. -/
def c2heap0 : Heap := [mkTok 1 none [] [], mkTok 2 none [] []]

/-- The two-node scenario after `B.set_parent(A, "lbl")`. -/
def c2heap1 : Heap := [mkTok 1 none [1] [], mkTok 2 (some 0) [] [(0, "lbl")]]

/-- The two-node scenario after a label-less `B.set_parent(A)`: B is
attached but no dependency-label entry was stored. -/
def c10heap1 : Heap := [mkTok 1 none [1] [], mkTok 2 (some 0) [] []]

/-- The label vocabulary of `NLPModel`: `index_map` (dict from label
string to dense index) and `labels` (index-ordered label list). -/
structure ModelV where
  index_map : List (String × Int)
  labels : List String
deriving Repr, DecidableEq

/-- `NLPModel.get_label_index`: `self.index_map.get(label, -1)`. -/
def get_label_index (m : ModelV) (label : String) : Int :=
  (m.index_map.lookup label).getD (-1)

/-- Python list indexing `l[i]`: a negative index counts from the end;
out-of-range access raises an IndexError. -/
def pyListGet (l : List String) (i : Int) : Except String String :=
  if 0 ≤ i then
    if hlt : i.toNat < l.length then .ok (l.get ⟨i.toNat, hlt⟩) else .error "IndexError"
  else
    if hlt : 0 ≤ (l.length : Int) + i ∧ ((l.length : Int) + i).toNat < l.length then
      .ok (l.get ⟨((l.length : Int) + i).toNat, hlt.2⟩)
    else .error "IndexError"

/-- `NLPModel.get_label`: `self.labels[index]`, with Python list
indexing semantics. -/
def get_label (m : ModelV) (index : Int) : Except String String :=
  pyListGet m.labels index

/-- `NLPModel.add_label`: return the existing index, or append the
label with the next dense index. -/
def add_label (m : ModelV) (label : String) : Int × ModelV :=
  if get_label_index m label < 0 then
    ((m.labels.length : Int),
     { index_map := m.index_map ++ [(label, (m.labels.length : Int))],
       labels := m.labels ++ [label] })
  else (get_label_index m label, m)

/-- `NLPModel.num_label`. -/
def num_label (m : ModelV) : Nat := m.labels.length

/-- `islice(states, b, e)` on a list: the elements at positions
`[b, e)` (empty when `e ≤ b`). -/
def pySlice {σ : Type} (l : List σ) (b e : Nat) : List σ :=
  (l.drop b).take (e - b)

/-- The chunk body `instances(thread_id, batch_size)` of
`NLPModel.train_instances`: the (feature vector, gold label) pairs of
one contiguous slice of the states, for an abstract deterministic
feature function `xf` and gold extractor `gold`. -/
def instancesOf {σ : Type} (xf : σ → List Int) (gold : σ → String)
    (states : List σ) (b e : Nat) : List (List Int × String) :=
  (pySlice states b e).map (fun s => (xf s, gold s))

/-- `xs, ys = zip(*pairs)`: unzip, raising a ValueError when there is
nothing to unpack. -/
def unzip2 {α β : Type} (l : List (α × β)) : Except String (List α × List β) :=
  match l with
  | [] => .error "ValueError: not enough values to unpack"
  | _ => .ok l.unzip

/-- Mapping gold labels through `add_label` in order, threading the
vocabulary. -/
def addLabels (m : ModelV) : List String → ModelV × List Int
  | [] => (m, [])
  | y :: ys =>
    ((addLabels (add_label m y).2 ys).1,
     (add_label m y).1 :: (addLabels (add_label m y).2 ys).2)

/-- The sequential branch of `NLPModel.train_instances`
(`num_threads == 1`): one slice covering all states. -/
def train_instances_seq {σ : Type} (xf : σ → List Int) (gold : σ → String)
    (m : ModelV) (states : List σ) :
    Except String (List (List Int) × List Int × ModelV) :=
  match unzip2 (instancesOf xf gold states 0 states.length) with
  | .error e => .error e
  | .ok (xs, ys) => .ok (xs, (addLabels m ys).2, (addLabels m ys).1)

/-- The join phase of the parallel branch: each future's result is
unpacked (`xys`), its raw gold labels mapped through `add_label` on the
driver thread in chunk order, then the per-chunk feature matrices and
label vectors concatenated in chunk order (`np.vstack`/`np.hstack`). -/
def collectXYs (m : ModelV) : List (List (List Int × String)) →
    Except String (List (List Int) × List Int × ModelV)
  | [] => .ok ([], [], m)
  | c :: cs =>
    match unzip2 c with
    | .error e => .error e
    | .ok (xs, ys) =>
      match collectXYs (addLabels m ys).1 cs with
      | .error e => .error e
      | .ok (rx, ry, m') => .ok (xs ++ rx, (addLabels m ys).2 ++ ry, m')

/-- `ceil(n / t)` on naturals, the chunk size
`np.math.ceil(len(states) / num_threads)`. -/
def ceilDiv (n t : Nat) : Nat := (n + t - 1) / t

/-- `NLPModel.train_instances`: sequential when `num_threads == 1`,
otherwise the state list is cut into `num_threads` contiguous chunks of
size `ceil(len(states) / num_threads)` (chunk `i` covering positions
`[i*size, min((i+1)*size, len))`), and the chunk results are joined in
chunk order. -/
def train_instances {σ : Type} (xf : σ → List Int) (gold : σ → String)
    (m : ModelV) (states : List σ) (num_threads : Nat) :
    Except String (List (List Int) × List Int × ModelV) :=
  if num_threads = 1 then train_instances_seq xf gold m states
  else
    collectXYs m ((List.range num_threads).map (fun i =>
      instancesOf xf gold states (i * ceilDiv states.length num_threads)
        (min ((i + 1) * ceilDiv states.length num_threads) states.length)))

/-- Modelled from the spec: the processing-state boundary contract
(`elit.component.template.state.NLPState` is not in the repository
snapshot; its contract is spec section 3).  `step` is one
`process(label, scores)` application with the model's deterministic,
per-state prediction folded in; `terminate` and `reset` are the
contract's operations; `corr`/`tot` are the [correct, total]
contributions that `eval(stats)` adds into the shared 2-element running
total before returning the cumulative ratio so far. -/
structure EvalOps (σ : Type) where
  step : σ → σ
  terminate : σ → Bool
  reset : σ → σ
  corr : σ → Int
  tot : σ → Int

/-- The cumulative `correct / total` quotient of an accumulated stats
pair, in exact rational arithmetic (0 when the total is 0). -/
def statsFrac (c t : Int) : ℚ := Rat.divInt c t

/-- One round of the evaluation loop: every active state (by identity,
its index in the pool) is advanced once by `process`. -/
def stepAll {σ : Type} [Inhabited σ] (ops : EvalOps σ) : List σ → List Nat → List σ
  | pool, [] => pool
  | pool, i :: rest => stepAll ops (pool.set i (ops.step (pool.getD i default))) rest

/-- The `while states:` loop of `NLPModel.evaluate`, with explicit
fuel: advance all active states once, then drop those that reached
termination from the active set (they are NOT reset).  `none` when the
fuel runs out before every state terminates. -/
def drive {σ : Type} [Inhabited σ] (ops : EvalOps σ) :
    Nat → List σ → List Nat → Option (List σ)
  | 0, pool, active => if active.isEmpty then some pool else none
  | fuel + 1, pool, active =>
    if active.isEmpty then some pool
    else
      drive ops fuel (stepAll ops pool active)
        (active.filter (fun i => ! ops.terminate ((stepAll ops pool active).getD i default)))

/-- The scoring loop of `NLPModel.evaluate`: `stats = [0, 0]`, then for
every original state in input order `acc = state.eval(stats)`; the
return value is `acc` after the last state — the ratio of the shared
running total after its contribution. -/
def scoring {σ : Type} (ops : EvalOps σ) (l : List σ) : ℚ :=
  (l.foldl (fun p s =>
    ((p.1.1 + ops.corr s, p.1.2 + ops.tot s),
     statsFrac (p.1.1 + ops.corr s) (p.1.2 + ops.tot s))) ((0, 0), 0)).2

/-- `NLPModel.evaluate`: reset every input state, drive them all to
termination in batched rounds, then score the original states (the
`backup` aliases) in input order. -/
def evaluateM {σ : Type} [Inhabited σ] (ops : EvalOps σ) (fuel : Nat)
    (states : List σ) : Option ℚ :=
  match drive ops fuel (states.map ops.reset) (List.range states.length) with
  | none => none
  | some pool => some (scoring ops pool)

/-- Per-state termination run: apply `process` repeatedly until
`terminate` first holds, the check following each step (matching the
loop's filter position). -/
def runToTerm {σ : Type} (ops : EvalOps σ) : Nat → σ → Option σ
  | 0, _ => none
  | fuel + 1, s =>
    if ops.terminate (ops.step s) then some (ops.step s)
    else runToTerm ops fuel (ops.step s)

/-- A concrete state system for the C3 witness: position counter with
termination at 2, unit contribution to both stats cells. -/
def c3ops : EvalOps Nat :=
  { step := fun s => s + 1, terminate := fun s => decide (2 ≤ s),
    reset := fun _ => 0, corr := fun _ => 1, tot := fun _ => 1 }

/-- Splitting a character list on a separator character (the wire
format's delimiters are all single characters, so Python's `str.split`
and `re.split` on them coincide with this). -/
def splitOnChar (c : Char) : List Char → List (List Char)
  | [] => [[]]
  | x :: xs =>
    match splitOnChar c xs with
    | [] => [[x]]
    | y :: ys => if x = c then [] :: y :: ys else (x :: y) :: ys

/-- Splitting a string on a single-character separator. -/
def splitStr (sep : Char) (s : String) : List String :=
  (splitOnChar sep s.data).map (fun l => String.mk l)

/-- Python truthiness rendering of an optional string field:
`value if value else BLANK` (absent and empty are both falsy). -/
def strOrBlank (s : Option String) : String :=
  match s with
  | none => BLANK
  | some v => if v = "" then BLANK else v

/-- The feats field of `NLPNode.__str__`: the `key=value` pairs joined
by `|`, or `_` when the dict is falsy (absent or empty). -/
def featsStr (f : Option (List (String × String))) : String :=
  match f with
  | none => BLANK
  | some [] => BLANK
  | some l => "|".intercalate (l.map (fun kv => "=".intercalate [kv.1, kv.2]))

/-- The secondary-head specs `headId:label` of `NLPNode.__str__`;
joining an absent label is Python's TypeError. -/
def sheadsList (h : Heap) (i : Nat) : List Nat → Except String (List String)
  | [] => .ok []
  | p :: rest =>
    match get_dependency_label h i (some p) with
    | none => .error "TypeError"
    | some lab =>
      match sheadsList h i rest with
      | .error e => .error e
      | .ok rs => .ok ((":".intercalate [toString (nd h p).node_id, lab]) :: rs)

/-- The nine fields of `NLPNode.__str__`, in output order: id, word,
lemma, part-of-speech, features, head id, dependency label to the
parent, secondary-head specs, named-entity tag. -/
def node_fields (h : Heap) (i : Nat) : Except String (List String) :=
  match sheadsList h i (nd h i).secondary_parents with
  | .error e => .error e
  | .ok sh =>
    .ok [toString (nd h i).node_id,
         strOrBlank (nd h i).word,
         strOrBlank (nd h i).lemma',
         strOrBlank (nd h i).pos,
         featsStr (nd h i).feats,
         (match (nd h i).parent with
          | some p => toString (nd h p).node_id
          | none => BLANK),
         (match get_dependency_label h i none with
          | none => BLANK
          | some d => if d = "" then BLANK else d),
         (if (nd h i).secondary_parents.isEmpty then BLANK else ";".intercalate sh),
         strOrBlank (nd h i).nament]

/-- `NLPNode.__str__`: the nine fields joined by tabs. -/
def node_str (h : Heap) (i : Nat) : Except String String :=
  match node_fields h i with
  | .error e => .error e
  | .ok fs => .ok ("\t".intercalate fs)

/-- Fallible map over a list, stopping at the first failure. -/
def mapE {α β : Type} (f : α → Except String β) : List α → Except String (List β)
  | [] => .ok []
  | a :: t =>
    match f a with
    | .error e => .error e
    | .ok b =>
      match mapE f t with
      | .error e => .error e
      | .ok bs => .ok (b :: bs)

/-- `NLPGraph.__str__`: the real tokens' renderings (root excluded)
joined by newlines, in order. -/
def graph_str (g : Heap) : Except String String :=
  match mapE (node_str g) ((List.range (g.length - 1)).map (· + 1)) with
  | .error e => .error e
  | .ok lines => .ok ("\n".intercalate lines)

/-- The column configuration of `TSVReader` (−1 denotes an absent
column). -/
structure TSVCfg where
  word_index : Int
  lemma_index : Int
  pos_index : Int
  feats_index : Int
  head_id_index : Int
  deprel_index : Int
  snd_heads_index : Int
  nament_index : Int
deriving Repr, DecidableEq

/-- `row[index]` for a non-negative column index, failing with an
IndexError past the row's end. -/
def pyRowGet (row : List String) (i : Int) : Except String String :=
  if 0 ≤ i ∧ i.toNat < row.length then .ok (row.getD i.toNat "") else .error "IndexError"

/-- `get_field(row, index)`: the raw column value when the index is
configured, absent otherwise.  (The `row is None` branch producing the
root marker is never reached here: rows come from split non-blank
lines.) -/
def get_field (row : List String) (index : Int) : Except String (Option String) :=
  if 0 ≤ index then
    match pyRowGet row index with
    | .error e => .error e
    | .ok v => .ok (some v)
  else .ok none

/-- Splitting one `|`-separated feats piece on `=` and taking
`feat[0]`/`feat[1]` — an IndexError when a piece holds no `=`, extra
pieces ignored. -/
def parse_feat_pairs : List String → Except String (List (String × String))
  | [] => .ok []
  | piece :: rest =>
    match splitStr '=' piece with
    | k :: v :: _ =>
      match parse_feat_pairs rest with
      | .error e => .error e
      | .ok ps => .ok ((k, v) :: ps)
    | _ => .error "IndexError"

/-- Dict insertion: an existing key is updated in place, a new key
appended (Python dict-comprehension semantics). -/
def dictSetStr (d : List (String × String)) (k v : String) : List (String × String) :=
  match d with
  | [] => [(k, v)]
  | (k', v') :: t => if k' = k then (k, v) :: t else (k', v') :: dictSetStr t k v

/-- The dict built from key/value pairs in order. -/
def pairsToDict (l : List (String × String)) : List (String × String) :=
  l.foldl (fun d kv => dictSetStr d kv.1 kv.2) []

/-- `get_feats(row)`: absent unless a features column is configured;
the blank marker `_` parses to Python `None`; otherwise the value is
split on `|`, each piece on `=`, into a dict. -/
def get_feats (cfg : TSVCfg) (row : List String) :
    Except String (Option (List (String × String))) :=
  if 0 ≤ cfg.feats_index then
    match pyRowGet row cfg.feats_index with
    | .error e => .error e
    | .ok f =>
      if f = BLANK then .ok none
      else
        match parse_feat_pairs (splitStr '|' f) with
        | .error e => .error e
        | .ok ps => .ok (some (pairsToDict ps))
  else .ok none

/-- `init_node(i)`: the `i`-th token node built from its row — id
`i + 1`, the surface fields from the configured columns, no
relations. -/
def init_node (cfg : TSVCfg) (row : List String) (i : Nat) : Except String NLPNode :=
  match get_field row cfg.word_index with
  | .error e => .error e
  | .ok w =>
    match get_field row cfg.lemma_index with
    | .error e => .error e
    | .ok lm =>
      match get_field row cfg.pos_index with
      | .error e => .error e
      | .ok ps =>
        match get_field row cfg.nament_index with
        | .error e => .error e
        | .ok nm =>
          match get_feats cfg row with
          | .error e => .error e
          | .ok fs =>
            .ok { node_id := (i : Int) + 1, word := w, lemma' := lm, pos := ps,
                  nament := nm, feats := fs, parent := none, children := [],
                  secondary_parents := [], secondary_children := [], deprels := [] }

/-- Building all token nodes, row by row. -/
def init_nodes (cfg : TSVCfg) : List (List String) → Nat → Except String (List NLPNode)
  | [], _ => .ok []
  | row :: rest, i =>
    match init_node cfg row i with
    | .error e => .error e
    | .ok n =>
      match init_nodes cfg rest (i + 1) with
      | .error e => .error e
      | .ok ns => .ok (n :: ns)

/-- `TSVReader.tsv_to_graph`: build one node per row and prepend the
root; then, if a head-id column is configured, run the head-resolution
loop — whose body begins by evaluating the global name `NLPArc`, which
is defined nowhere in the source (`elit/structure.py` defines no
`NLPArc`, and `reader.py` imports only from `elit.structure` and `re`),
so its first iteration raises a NameError whenever at least one row
exists. -/
def tsv_to_graph (cfg : TSVCfg) (tsv : List (List String)) : Except String Heap :=
  match init_nodes cfg tsv 0 with
  | .error e => .error e
  | .ok ns =>
    if 0 ≤ cfg.head_id_index then
      if tsv.isEmpty then .ok (mkGraph ns)
      else .error "NameError: name NLPArc is not defined"
    else .ok (mkGraph ns)

/-- One rendered block split back into rows: lines on newlines, columns
on tabs (the reader's `next()` line handling for one block). -/
def toRows (s : String) : List (List String) :=
  (splitStr '\n' s).map (fun line => splitStr '\t' line)

/-- Sequencing of fallible results. -/
def bindE {α β : Type} (x : Except String α) (f : α → Except String β) : Except String β :=
  match x with
  | .error e => .error e
  | .ok v => f v

/-- A token fixture for the C1 scenario. -/
def c1tok (id : Int) (w : String) : NLPNode :=
  { (default : NLPNode) with node_id := id, word := some w }

/-- The C1 three-token sentence, before attachment. -/
def c1g0 : Heap := mkGraph [c1tok 1 "John", c1tok 2 "loves", c1tok 3 "Mary"]

/-- The C1 attachments: token 1 under token 2 (nsubj), token 2 under
the root, token 3 under token 2 (dobj), plus one secondary head
(token 3 under token 1, label sec). -/
def c1ops : List Op :=
  [.setParent 1 (some 2) (some "nsubj"), .setParent 2 (some 0) (some "root"),
   .setParent 3 (some 2) (some "dobj"), .addSecondaryParent 3 1 (some "sec")]

/-- The rendered TSV text of the C1 graph. -/
def c1text : String :=
  "1\tJohn\t_\t_\t_\t2\tnsubj\t_\t_\n2\tloves\t_\t_\t_\t0\troot\t_\t_\n3\tMary\t_\t_\t_\t2\tdobj\t1:sec\t_"

/-- A reader configuration matching the renderer's field order. -/
def c1cfg : TSVCfg :=
  { word_index := 1, lemma_index := 2, pos_index := 3, feats_index := 4,
    head_id_index := 5, deprel_index := 6, snd_heads_index := 7, nament_index := 8 }

/-- A one-node heap (a default token) for the C7 witness. -/
def c7heap : Heap := [mkTok 1 none [] []]

/-- A reader configuration with only word and feats columns. -/
def c7cfg : TSVCfg :=
  { word_index := 0, lemma_index := -1, pos_index := -1, feats_index := 1,
    head_id_index := -1, deprel_index := -1, snd_heads_index := -1, nament_index := -1 }

/-- A row whose configured feats column holds the blank marker. -/
def c7row : List String := ["x", "_"]

/-- The node the reader builds from `c7row`. -/
def c7node : NLPNode :=
  { node_id := 1, word := some "x", lemma' := none, pos := none, nament := none,
    feats := none, parent := none, children := [], secondary_parents := [],
    secondary_children := [], deprels := [] }

/-- A concrete two-label vocabulary for the C9 witness. -/
def c9model : ModelV := { index_map := [("a", 0), ("b", 1)], labels := ["a", "b"] }

/-- A concrete feature function for the C4 fixtures. -/
def c4xf : Nat → List Int := fun s => [(s : Int)]

/-- A concrete gold extractor for the C4 fixtures. -/
def c4gold : Nat → String := fun _ => "g"

/-- The empty vocabulary. -/
def c4m0 : ModelV := { index_map := [], labels := [] }

/-- C5 counterexample: on `c5heap`, node 1 has a right sibling (node 2),
so the claimed child-side-over-parent semantics answers node 2 for both
`get_rightmost_sibling(0)` and `get_right_nearest_sibling(0)`, but the
code answers absent for both (its rightmost index is computed from
self's own empty children list, and its right-nearest search carries an
extra `+ 1`). -/
theorem c5_counterexample :
    get_rightmost_sibling c5heap 1 0 = none ∧
    sib_spec_rightmost c5heap 1 0 = some 2 ∧
    get_rightmost_sibling c5heap 1 0 ≠ sib_spec_rightmost c5heap 1 0 ∧
    get_right_nearest_sibling c5heap 1 0 = none ∧
    sib_spec_right_nearest c5heap 1 0 = some 2 ∧
    get_right_nearest_sibling c5heap 1 0 ≠ sib_spec_right_nearest c5heap 1 0 := by
  decide

/-- C5 (amended): `get_leftmost_sibling` and `get_left_nearest_sibling`
match the child-side semantics computed over `self.parent.children`;
`get_right_nearest_sibling order` equals that semantics at `order + 1`
(one position further right); and `get_rightmost_sibling` computes its
index from self's own children count, so it matches the claimed
semantics exactly when self has as many children as its parent. -/
theorem c5_sibling_queries (h : Heap) (i : Nat) (o : Nat) :
    get_leftmost_sibling h i o = sib_spec_leftmost h i o ∧
    get_left_nearest_sibling h i o = sib_spec_left_nearest h i o ∧
    get_right_nearest_sibling h i o = sib_spec_right_nearest h i (o + 1) ∧
    (∀ p, (nd h i).parent = some p →
      (nd h i).children.length = (nd h p).children.length →
      get_rightmost_sibling h i o = sib_spec_rightmost h i o) := by
  refine ⟨rfl, rfl, ?_, ?_⟩
  · unfold get_right_nearest_sibling sib_spec_right_nearest
    cases (nd h i).parent with
    | none => rfl
    | some p =>
      show queryAt (nd h p).children
          ((bisect_right (key h) (nd h p).children (key h i) : Int) + 1 + (o : Int))
        = queryAt (nd h p).children
          ((bisect_right (key h) (nd h p).children (key h i) : Int) + ((o + 1 : Nat) : Int))
      congr 1
      push_cast
      ring
  · intro p hp hlen
    unfold get_rightmost_sibling sib_spec_rightmost
    rw [hp]
    show queryAtGt h (nd h p).children
        (((nd h i).children.length : Int) - 1 - (o : Int)) (key h i)
      = queryAtGt h (nd h p).children
        (((nd h p).children.length : Int) - 1 - (o : Int)) (key h i)
    rw [hlen]

/-- C5 witness: node 1 of `c5w` has as many children (two) as its parent,
so the amended rightmost-sibling equation applies there, and the
right-nearest shift is visible concretely. -/
theorem c5_sibling_queries_witness :
    get_rightmost_sibling c5w 1 0 = sib_spec_rightmost c5w 1 0 ∧
    get_right_nearest_sibling c5w 1 0 = sib_spec_right_nearest c5w 1 1 :=
  ⟨(c5_sibling_queries c5w 1 0).2.2.2 0 (by decide) (by decide),
   (c5_sibling_queries c5w 1 0).2.2.1⟩

/-- C6: with five siblings of ids 1..5 attached to a common parent P,
`P.get_leftmost_child()` answers the id-1 node exactly when P's own
position `k` exceeds 1, and with P at position 3 (P then being the node
with id 3 that has the five children), `get_left_nearest_child` and
`get_right_nearest_child` answer the id-2 and id-4 nodes. -/
theorem c6_positional_queries :
    runOps (initFive 3) fiveOps = .ok (heapFive 3) ∧
    (∀ k : Int, get_leftmost_child (heapFive k) 0 0 = some 1 ↔ 1 < k) ∧
    get_left_nearest_child (heapFive 3) 0 0 = some 2 ∧
    get_right_nearest_child (heapFive 3) 0 0 = some 4 := by
  refine ⟨by decide, ?_, by decide, by decide⟩
  intro k
  have hq : get_leftmost_child (heapFive k) 0 0
      = if (0 : Int) ≤ 0 ∧ (0 : Int) < 5 ∧ (1 : Int) < k then some 1 else none := rfl
  rw [hq]
  constructor
  · intro hres
    by_contra hk
    rw [if_neg (fun hc => hk hc.2.2)] at hres
    exact Option.noConfusion hres
  · intro hk
    rw [if_pos ⟨le_refl 0, by norm_num, hk⟩]

/-- C6 witness: the leftmost-child equivalence evaluated at concrete
parent positions 2 (succeeds) and 1 (fails). -/
theorem c6_positional_queries_witness :
    get_leftmost_child (heapFive 2) 0 0 = some 1 ∧
    get_leftmost_child (heapFive 1) 0 0 ≠ some 1 :=
  ⟨(c6_positional_queries.2.1 2).mpr (by norm_num),
   fun hcontra => by
     have := (c6_positional_queries.2.1 1).mp hcontra
     exact absurd this (by norm_num)⟩

/-- C8: for every list of N input nodes, the constructed Graph reports
length N (root excluded), its slot 0 holds the reserved root node
(id 0, all textual fields the root marker), and iterating it yields
exactly the N original nodes in input order. -/
theorem c8_graph_root_invariant (ns : List NLPNode) :
    graph_len (mkGraph ns) = ns.length ∧
    (mkGraph ns).getD 0 default = rootNode ∧
    rootNode.node_id = 0 ∧ rootNode.word = some ROOT_TAG ∧
    rootNode.lemma' = some ROOT_TAG ∧ rootNode.pos = some ROOT_TAG ∧
    rootNode.nament = some ROOT_TAG ∧
    graph_iter (mkGraph ns) = ns := by
  refine ⟨?_, rfl, rfl, rfl, rfl, rfl, rfl, ?_⟩
  · simp [graph_len, mkGraph]
  · simp [graph_iter, mkGraph]

/-- C8 witness: the invariant evaluated on a concrete 2-node list. -/
theorem c8_graph_root_invariant_witness :
    graph_len (mkGraph [default, default]) = 2 ∧
    graph_iter (mkGraph [default, default]) = [default, default] :=
  ⟨(c8_graph_root_invariant [default, default]).1,
   (c8_graph_root_invariant [default, default]).2.2.2.2.2.2.2⟩

theorem set_oob {α : Type} : ∀ (l : List α) (i : Nat) (v : α), l.length ≤ i → l.set i v = l
  | [], _, _, _ => rfl
  | _ :: _, 0, _, h => absurd h (by simp)
  | a :: t, i + 1, v, h => by
    rw [List.set]
    rw [set_oob t i v (Nat.le_of_succ_le_succ h)]

theorem getD_set_self {α : Type} : ∀ (l : List α) (i : Nat) (v d : α), i < l.length →
    (l.set i v).getD i d = v
  | _ :: _, 0, _, _, _ => rfl
  | _ :: t, n + 1, v, d, h => getD_set_self t n v d (Nat.lt_of_succ_lt_succ h)
  | [], _, _, _, h => absurd h (by simp)

theorem getD_set_ne {α : Type} : ∀ (l : List α) (i j : Nat) (v d : α), i ≠ j →
    (l.set i v).getD j d = l.getD j d
  | [], _, _, _, _, _ => rfl
  | _ :: _, 0, 0, _, _, hne => absurd rfl hne
  | _ :: _, 0, _ + 1, _, _, _ => rfl
  | _ :: _, _ + 1, 0, _, _, _ => rfl
  | _ :: t, i + 1, j + 1, v, d, hne =>
    getD_set_ne t i j v d (fun hc => hne (by rw [hc]))

theorem length_modifyNode (h : Heap) (i : Nat) (f : NLPNode → NLPNode) :
    (modifyNode h i f).length = h.length := by
  simp [modifyNode]

theorem modifyNode_oob (h : Heap) (i : Nat) (f : NLPNode → NLPNode) (hi : h.length ≤ i) :
    modifyNode h i f = h :=
  set_oob h i _ hi

theorem nd_modifyNode_self (h : Heap) (i : Nat) (f : NLPNode → NLPNode) (hi : i < h.length) :
    nd (modifyNode h i f) i = f (nd h i) :=
  getD_set_self h i _ default hi

theorem nd_modifyNode_ne (h : Heap) (i j : Nat) (f : NLPNode → NLPNode) (hij : i ≠ j) :
    nd (modifyNode h i f) j = nd h j :=
  getD_set_ne h i j _ default hij

theorem nd_modifyNode (h : Heap) (i j : Nat) (f : NLPNode → NLPNode) :
    nd (modifyNode h i f) j = if j = i ∧ i < h.length then f (nd h i) else nd h j := by
  by_cases hij : j = i
  · subst hij
    by_cases hi : j < h.length
    · rw [if_pos ⟨rfl, hi⟩, nd_modifyNode_self h j f hi]
    · rw [if_neg (fun hc => hi hc.2), modifyNode_oob h j f (Nat.le_of_not_lt hi)]
  · rw [if_neg (fun hc => hij hc.1), nd_modifyNode_ne h i j f (fun hc => hij hc.symm)]

theorem pres_modifyNode (h : Heap) (i : Nat) (f : NLPNode → NLPNode)
    (hf : ∀ n, (f n).children = n.children ∧ (f n).parent = n.parent ∧
      (f n).node_id = n.node_id) :
    Pres h (modifyNode h i f) := by
  refine ⟨length_modifyNode h i f, fun j => ?_, fun j => ?_, fun j => ?_⟩
  · rw [nd_modifyNode]
    split
    · next hc => rw [hc.1]; exact (hf (nd h i)).1
    · rfl
  · rw [nd_modifyNode]
    split
    · next hc => rw [hc.1]; exact (hf (nd h i)).2.1
    · rfl
  · rw [key, key, nd_modifyNode]
    split
    · next hc => rw [hc.1]; exact (hf (nd h i)).2.2
    · rfl

theorem Pres.refl (h : Heap) : Pres h h :=
  ⟨rfl, fun _ => rfl, fun _ => rfl, fun _ => rfl⟩

theorem Pres.trans {h1 h2 h3 : Heap} (a : Pres h1 h2) (b : Pres h2 h3) : Pres h1 h3 :=
  ⟨b.1.trans a.1, fun j => (b.2.1 j).trans (a.2.1 j), fun j => (b.2.2.1 j).trans (a.2.2.1 j),
   fun j => (b.2.2.2 j).trans (a.2.2.2 j)⟩

theorem pres_set_dependency_label (h : Heap) (i q : Nat) (label : Option String) :
    Pres h (set_dependency_label h i q label) := by
  cases label with
  | none => exact Pres.refl h
  | some s =>
    simp only [set_dependency_label]
    by_cases hs : s = ""
    · rw [if_pos hs]
      exact Pres.refl h
    · rw [if_neg hs]
      refine pres_modifyNode h i _ ?_
      exact fun n => ⟨rfl, rfl, rfl⟩

theorem pres_add_secondary_parent (h : Heap) (i node : Nat) (label : Option String) :
    Pres h (add_secondary_parent h i node label) := by
  unfold add_secondary_parent
  refine Pres.trans (Pres.trans (pres_modifyNode h i _ ?_) (pres_modifyNode _ node _ ?_))
    (pres_set_dependency_label _ i node label)
  · exact fun n => ⟨rfl, rfl, rfl⟩
  · exact fun n => ⟨rfl, rfl, rfl⟩

theorem pres_remove_secondary_parent (h : Heap) (i node : Nat) :
    Pres h (remove_secondary_parent h i node).1 := by
  unfold remove_secondary_parent
  by_cases hidx : 0 ≤ bisect_index (nd h i).secondary_parents node
  · rw [if_pos hidx]
    dsimp only
    refine pres_modifyNode h i _ ?_
    exact fun n => ⟨rfl, rfl, rfl⟩
  · rw [if_neg hidx]
    exact Pres.refl h

theorem childrenInv_transport {h h' : Heap} (hpres : Pres h h') (hinv : childrenInv h) :
    childrenInv h' := by
  obtain ⟨hlen, hc, hp, hk⟩ := hpres
  intro i hi
  rw [hlen] at hi
  obtain ⟨h1, h2, h3, h4⟩ := hinv i hi
  refine ⟨by rw [hc]; exact h1, ?_, ?_, ?_⟩
  · rw [hc]
    exact h2.imp (fun hab => by rw [hk, hk]; exact hab)
  · intro j hj
    rw [hc] at hj
    rw [hlen]
    exact h3 j hj
  · intro j hj
    rw [hlen] at hj
    rw [hc, hp]
    exact h4 j hj

theorem mem_insort (κ : Nat → Int) (l : List Nat) (x a : Nat) :
    a ∈ insort_right κ l x ↔ a = x ∨ a ∈ l := by
  induction l with
  | nil => simp [insort_right]
  | cons b t ih =>
    rw [insort_right]
    split
    · simp [List.mem_cons]
    · simp only [List.mem_cons, ih]
      tauto

theorem insort_nodup (κ : Nat → Int) (l : List Nat) (x : Nat) (hx : x ∉ l) (hl : l.Nodup) :
    (insort_right κ l x).Nodup := by
  induction l with
  | nil => simp [insort_right]
  | cons b t ih =>
    rw [insort_right]
    rw [List.nodup_cons] at hl
    split
    · exact List.nodup_cons.mpr ⟨hx, List.nodup_cons.mpr hl⟩
    · refine List.nodup_cons.mpr ⟨?_, ih (fun hc => hx (List.mem_cons_of_mem b hc)) hl.2⟩
      intro hb
      rcases (mem_insort κ t x b).mp hb with hbx | hbt
      · subst hbx
        exact hx (List.mem_cons_self b t)
      · exact hl.1 hbt

theorem insort_pairwise (κ : Nat → Int) (l : List Nat) (x : Nat)
    (hl : l.Pairwise (fun a b => κ a ≤ κ b)) :
    (insort_right κ l x).Pairwise (fun a b => κ a ≤ κ b) := by
  induction l with
  | nil => simp [insort_right]
  | cons b t ih =>
    rw [insort_right]
    rw [List.pairwise_cons] at hl
    split
    · next hlt =>
      refine List.pairwise_cons.mpr ⟨?_, List.pairwise_cons.mpr hl⟩
      intro c hc
      rcases List.mem_cons.mp hc with rfl | hct
      · exact le_of_lt hlt
      · exact le_trans (le_of_lt hlt) (hl.1 c hct)
    · next hge =>
      rw [not_lt] at hge
      refine List.pairwise_cons.mpr ⟨?_, ih hl.2⟩
      intro c hc
      rcases (mem_insort κ t x c).mp hc with rfl | hct
      · exact hge
      · exact hl.1 c hct

theorem insort_range (κ : Nat → Int) (l : List Nat) (x n : Nat) (hx : x < n)
    (hl : ∀ j ∈ l, j < n) : ∀ j ∈ insort_right κ l x, j < n := by
  intro j hj
  rcases (mem_insort κ l x j).mp hj with rfl | hjl
  · exact hx
  · exact hl j hjl

theorem detach_prev_spec (h h1 : Heap) (i : Nat) (hd : detach_prev h i = .ok h1) :
    h1.length = h.length ∧
    (∀ j, (nd h1 j).parent = (nd h j).parent) ∧
    (∀ j, key h1 j = key h j) ∧
    (((∀ j, (nd h1 j).children = (nd h j).children) ∧
        (∀ p', (nd h i).parent = some p' → h.length ≤ p')) ∨
      ∃ p, (nd h i).parent = some p ∧ p < h.length ∧
        (nd h1 p).children = (nd h p).children.erase i ∧
        (∀ j, j ≠ p → (nd h1 j).children = (nd h j).children)) := by
  unfold detach_prev at hd
  cases hpar : (nd h i).parent with
  | none =>
    rw [hpar] at hd
    cases hd
    refine ⟨rfl, fun _ => rfl, fun _ => rfl, Or.inl ⟨fun _ => rfl, ?_⟩⟩
    intro p' hp'
    exact Option.noConfusion hp'
  | some p =>
    rw [hpar] at hd
    dsimp only at hd
    by_cases hp : p < h.length
    · -- the children of p really change
      cases hdel : dictDel (nd (modifyNode h p
          (fun n => { n with children := bisect_remove n.children i })) i).deprels p with
      | error e =>
        rw [hdel] at hd
        cases hd
      | ok d' =>
        rw [hdel] at hd
        cases hd
        have pcb : Pres (modifyNode h p (fun n => { n with children := bisect_remove n.children i }))
            (modifyNode (modifyNode h p (fun n => { n with children := bisect_remove n.children i }))
              i (fun n => { n with deprels := d' })) := by
          refine pres_modifyNode _ i _ ?_
          exact fun n => ⟨rfl, rfl, rfl⟩
        refine ⟨?_, fun j => ?_, fun j => ?_, Or.inr ⟨p, rfl, hp, ?_, ?_⟩⟩
        · rw [pcb.1, length_modifyNode]
        · rw [pcb.2.2.1 j, nd_modifyNode]
          split
          · next hc => rw [hc.1]
          · rfl
        · rw [pcb.2.2.2 j, key, key, nd_modifyNode]
          split
          · next hc => rw [hc.1]
          · rfl
        · rw [pcb.2.1 p, nd_modifyNode_self h p _ hp]
          rfl
        · intro j hj
          rw [pcb.2.1 j, nd_modifyNode_ne h p j _ (fun hc => hj hc.symm)]
      -- end
    · -- p out of range: the first modify is a no-op
      rw [modifyNode_oob h p _ (Nat.le_of_not_lt hp)] at hd
      cases hdel : dictDel (nd h i).deprels p with
      | error e =>
        rw [hdel] at hd
        cases hd
      | ok d' =>
        rw [hdel] at hd
        cases hd
        have pcb : Pres h (modifyNode h i (fun n => { n with deprels := d' })) := by
          refine pres_modifyNode h i _ ?_
          exact fun n => ⟨rfl, rfl, rfl⟩
        refine ⟨pcb.1, pcb.2.2.1, pcb.2.2.2, Or.inl ⟨pcb.2.1, ?_⟩⟩
        intro p' hp'
        obtain rfl := Option.some.inj hp'
        exact Nat.le_of_not_lt hp

theorem detached_not_mem (h h1 : Heap) (i : Nat) (hinv : childrenInv h) (hi : i < h.length)
    (hd : detach_prev h i = .ok h1) :
    ∀ a, a < h.length → i ∉ (nd h1 a).children := by
  obtain ⟨_, _, _, hch⟩ := detach_prev_spec h h1 i hd
  intro a ha hmem
  rcases hch with ⟨hsame, hoob⟩ | ⟨p, hp, hplt, hcp, hother⟩
  · rw [hsame] at hmem
    have hpa := ((hinv a ha).2.2.2 i hi).mp hmem
    exact absurd ha (Nat.not_lt.mpr (hoob a hpa))
  · by_cases hap : a = p
    · subst hap
      rw [hcp] at hmem
      exact ((hinv a ha).1.mem_erase_iff.mp hmem).1 rfl
    · rw [hother a hap] at hmem
      have hpa := ((hinv a ha).2.2.2 i hi).mp hmem
      rw [hp] at hpa
      exact hap (Option.some.inj hpa).symm

theorem key_modifyNode (h : Heap) (i : Nat) (f : NLPNode → NLPNode)
    (hf : ∀ n, (f n).node_id = n.node_id) :
    ∀ j, key (modifyNode h i f) j = key h j := by
  intro j
  rw [key, key, nd_modifyNode]
  split
  · next hc => rw [hc.1]; exact hf (nd h i)
  · rfl

theorem parent_modifyNode (h : Heap) (i : Nat) (f : NLPNode → NLPNode)
    (hf : ∀ n, (f n).parent = n.parent) :
    ∀ j, (nd (modifyNode h i f) j).parent = (nd h j).parent := by
  intro j
  rw [nd_modifyNode]
  split
  · next hc => rw [hc.1]; exact hf (nd h i)
  · rfl

theorem children_modifyNode (h : Heap) (i : Nat) (f : NLPNode → NLPNode)
    (hf : ∀ n, (f n).children = n.children) :
    ∀ j, (nd (modifyNode h i f) j).children = (nd h j).children := by
  intro j
  rw [nd_modifyNode]
  split
  · next hc => rw [hc.1]; exact hf (nd h i)
  · rfl

theorem set_parent_spec (h h' : Heap) (i : Nat) (node : Option Nat) (label : Option String)
    (hi : i < h.length) (hq : ∀ q, node = some q → q < h.length)
    (hsp : set_parent h i node label = .ok h') :
    ∃ h1, detach_prev h i = .ok h1 ∧
      h'.length = h.length ∧
      (∀ j, key h' j = key h1 j) ∧
      (∀ j, (nd h' j).parent = if j = i then node else (nd h1 j).parent) ∧
      ((node = none ∧ ∀ j, (nd h' j).children = (nd h1 j).children) ∨
       (∃ q, node = some q ∧ q < h.length ∧
         (nd h' q).children = insort_right (key h1) (nd h1 q).children i ∧
         (∀ j, j ≠ q → (nd h' j).children = (nd h1 j).children))) := by
  unfold set_parent at hsp
  cases hdet : detach_prev h i with
  | error e =>
    rw [hdet] at hsp
    cases hsp
  | ok h1 =>
    rw [hdet] at hsp
    dsimp only at hsp
    have hlen1 : h1.length = h.length := (detach_prev_spec h h1 i hdet).1
    have hi1 : i < h1.length := by rw [hlen1]; exact hi
    cases node with
    | none =>
      cases hsp
      refine ⟨h1, rfl, by rw [length_modifyNode, hlen1],
        key_modifyNode h1 i _ (fun n => rfl), fun j => ?_,
        Or.inl ⟨rfl, children_modifyNode h1 i _ (fun n => rfl)⟩⟩
      by_cases hji : j = i
      · subst hji
        rw [if_pos rfl, nd_modifyNode_self h1 j _ hi1]
      · rw [if_neg hji, nd_modifyNode_ne h1 i j _ (fun hc => hji hc.symm)]
    | some q =>
      set h2 := modifyNode h1 i (fun n => { n with parent := some q }) with hh2
      set h3 := modifyNode h2 q
        (fun n => { n with children := insort_right (key h2) n.children i }) with hh3
      cases hsp
      have hq' : q < h.length := hq q rfl
      have h2len : h2.length = h1.length := length_modifyNode h1 i _
      have hq2 : q < h2.length := by rw [h2len, hlen1]; exact hq'
      have h2k : ∀ j, key h2 j = key h1 j := key_modifyNode h1 i _ (fun n => rfl)
      have h2c : ∀ j, (nd h2 j).children = (nd h1 j).children :=
        children_modifyNode h1 i _ (fun n => rfl)
      have hkfun : key h2 = key h1 := funext h2k
      have psdl : Pres h3 (set_dependency_label h3 i q label) :=
        pres_set_dependency_label h3 i q label
      have h3k : ∀ j, key h3 j = key h2 j := key_modifyNode h2 q _ (fun n => rfl)
      have h3p : ∀ j, (nd h3 j).parent = (nd h2 j).parent :=
        parent_modifyNode h2 q _ (fun n => rfl)
      have h3len : h3.length = h2.length := length_modifyNode h2 q _
      refine ⟨h1, rfl, ?_, ?_, ?_, Or.inr ⟨q, rfl, hq', ?_, ?_⟩⟩
      · rw [psdl.1, h3len, h2len, hlen1]
      · intro j
        rw [psdl.2.2.2 j, h3k j, h2k j]
      · intro j
        rw [psdl.2.2.1 j, h3p j]
        by_cases hji : j = i
        · subst hji
          rw [if_pos rfl, hh2, nd_modifyNode_self h1 j _ hi1]
        · rw [if_neg hji, hh2, nd_modifyNode_ne h1 i j _ (fun hc => hji hc.symm)]
      · rw [psdl.2.1 q, hh3, nd_modifyNode_self h2 q _ hq2]
        show insort_right (key h2) (nd h2 q).children i = insort_right (key h1) (nd h1 q).children i
        rw [hkfun, h2c q]
      · intro j hj
        rw [psdl.2.1 j, hh3, nd_modifyNode_ne h2 q j _ (fun hc => hj hc.symm), h2c j]

theorem childrenInv_set_parent (h h' : Heap) (i : Nat) (node : Option Nat)
    (label : Option String) (hinv : childrenInv h) (hi : i < h.length)
    (hq : ∀ q, node = some q → q < h.length)
    (hsp : set_parent h i node label = .ok h') : childrenInv h' := by
  obtain ⟨h1, hdet, hlen, hkey, hpar, hch⟩ := set_parent_spec h h' i node label hi hq hsp
  obtain ⟨hlen1, hpar1, hkey1, hch1⟩ := detach_prev_spec h h1 i hdet
  have hnm : ∀ a, a < h.length → i ∉ (nd h1 a).children := detached_not_mem h h1 i hinv hi hdet
  have h1nodup : ∀ a, a < h.length → (nd h1 a).children.Nodup := by
    intro a ha
    rcases hch1 with ⟨hsame, _⟩ | ⟨p, hp, hplt, hcp, hother⟩
    · rw [hsame]
      exact (hinv a ha).1
    · by_cases hap : a = p
      · subst hap
        rw [hcp]
        exact (hinv a ha).1.erase i
      · rw [hother a hap]
        exact (hinv a ha).1
  have h1sorted : ∀ a, a < h.length →
      (nd h1 a).children.Pairwise (fun x y => key h1 x ≤ key h1 y) := by
    intro a ha
    have base : ∀ l : List Nat, l.Pairwise (fun x y => key h x ≤ key h y) →
        l.Pairwise (fun x y => key h1 x ≤ key h1 y) :=
      fun l hl => hl.imp (fun hxy => by rw [hkey1, hkey1]; exact hxy)
    rcases hch1 with ⟨hsame, _⟩ | ⟨p, hp, hplt, hcp, hother⟩
    · rw [hsame]
      exact base _ (hinv a ha).2.1
    · by_cases hap : a = p
      · subst hap
        rw [hcp]
        exact base _ (List.Pairwise.sublist (List.erase_sublist i _) (hinv a ha).2.1)
      · rw [hother a hap]
        exact base _ (hinv a ha).2.1
  have h1range : ∀ a, a < h.length → ∀ j ∈ (nd h1 a).children, j < h.length := by
    intro a ha j hj
    rcases hch1 with ⟨hsame, _⟩ | ⟨p, hp, hplt, hcp, hother⟩
    · rw [hsame] at hj
      exact (hinv a ha).2.2.1 j hj
    · by_cases hap : a = p
      · subst hap
        rw [hcp] at hj
        exact (hinv a ha).2.2.1 j (List.mem_of_mem_erase hj)
      · rw [hother a hap] at hj
        exact (hinv a ha).2.2.1 j hj
  have h1mem : ∀ a, a < h.length → ∀ j, j < h.length → j ≠ i →
      (j ∈ (nd h1 a).children ↔ (nd h j).parent = some a) := by
    intro a ha j hj hji
    rcases hch1 with ⟨hsame, _⟩ | ⟨p, hp, hplt, hcp, hother⟩
    · rw [hsame]
      exact (hinv a ha).2.2.2 j hj
    · by_cases hap : a = p
      · subst hap
        rw [hcp, List.mem_erase_of_ne hji]
        exact (hinv a ha).2.2.2 j hj
      · rw [hother a hap]
        exact (hinv a ha).2.2.2 j hj
  intro a ha'
  rw [hlen] at ha'
  rcases hch with ⟨hnone, hsamec⟩ | ⟨q, hnq, hqlt, hcq, hotherq⟩
  · -- cleared parent
    refine ⟨by rw [hsamec]; exact h1nodup a ha', ?_, ?_, ?_⟩
    · rw [hsamec]
      exact (h1sorted a ha').imp (fun hxy => by rw [hkey, hkey]; exact hxy)
    · intro j hj
      rw [hsamec] at hj
      rw [hlen]
      exact h1range a ha' j hj
    · intro j hj'
      rw [hlen] at hj'
      rw [hsamec, hpar j]
      by_cases hji : j = i
      · rw [if_pos hji, hnone]
        subst hji
        exact iff_of_false (hnm a ha') (by simp)
      · rw [if_neg hji, hpar1 j]
        exact h1mem a ha' j hj' hji
  · -- new parent q
    subst hnq
    refine ⟨?_, ?_, ?_, ?_⟩
    · by_cases haq : a = q
      · subst haq
        rw [hcq]
        exact insort_nodup (key h1) _ i (hnm a ha') (h1nodup a ha')
      · rw [hotherq a haq]
        exact h1nodup a ha'
    · by_cases haq : a = q
      · subst haq
        rw [hcq]
        exact (insort_pairwise (key h1) _ i (h1sorted a ha')).imp
          (fun hxy => by rw [hkey, hkey]; exact hxy)
      · rw [hotherq a haq]
        exact (h1sorted a ha').imp (fun hxy => by rw [hkey, hkey]; exact hxy)
    · intro j hj
      rw [hlen]
      by_cases haq : a = q
      · subst haq
        rw [hcq] at hj
        exact insort_range (key h1) _ i h.length hi (h1range a ha') j hj
      · rw [hotherq a haq] at hj
        exact h1range a ha' j hj
    · intro j hj'
      rw [hlen] at hj'
      rw [hpar j]
      by_cases hji : j = i
      · subst hji
        rw [if_pos rfl]
        by_cases haq : a = q
        · subst haq
          rw [hcq]
          exact iff_of_true ((mem_insort (key h1) _ j j).mpr (Or.inl rfl)) rfl
        · rw [hotherq a haq]
          exact iff_of_false (hnm a ha') (fun hc => haq (Option.some.inj hc).symm)
      · rw [if_neg hji, hpar1 j]
        by_cases haq : a = q
        · subst haq
          rw [hcq]
          constructor
          · intro hmem
            rcases (mem_insort (key h1) _ i j).mp hmem with rfl | hmem1
            · exact absurd rfl hji
            · exact (h1mem a ha' j hj' hji).mp hmem1
          · intro hpj
            exact (mem_insort (key h1) _ i j).mpr
              (Or.inr ((h1mem a ha' j hj' hji).mpr hpj))
        · rw [hotherq a haq]
          exact h1mem a ha' j hj' hji

theorem deprels_modifyNode (h : Heap) (i : Nat) (f : NLPNode → NLPNode)
    (hf : ∀ n, (f n).deprels = n.deprels) :
    ∀ j, (nd (modifyNode h i f) j).deprels = (nd h j).deprels := by
  intro j
  rw [nd_modifyNode]
  split
  · next hc => rw [hc.1]; exact hf (nd h i)
  · rfl

theorem dictDel_eq_error (d : List (Nat × String)) (k : Nat) (hk : d.lookup k = none) :
    dictDel d k = .error "KeyError" := by
  induction d with
  | nil => rfl
  | cons kv t ih =>
    obtain ⟨k', v'⟩ := kv
    by_cases hkk : k' = k
    · subst hkk
      simp [List.lookup] at hk
    · have hbeq : (k == k') = false := beq_eq_false_iff_ne.mpr (fun hc => hkk hc.symm)
      have hk' : t.lookup k = none := by
        simpa [List.lookup, hbeq] using hk
      simp only [dictDel]
      rw [if_neg hkk, ih hk']

theorem sdl_falsy (g : Heap) (i q : Nat) (lbl : Option String)
    (hfalsy : labelFalsy lbl = true) : set_dependency_label g i q lbl = g := by
  cases lbl with
  | none => rfl
  | some s =>
    simp only [labelFalsy, beq_iff_eq] at hfalsy
    simp only [set_dependency_label]
    rw [if_pos hfalsy]

theorem childrenInv_applyOp (h h' : Heap) (op : Op) (hinv : childrenInv h)
    (hwf : op.Wf h.length) (hap : applyOp h op = .ok h') : childrenInv h' := by
  cases op with
  | setParent i node label =>
    exact childrenInv_set_parent h h' i node label hinv hwf.1 hwf.2 hap
  | addSecondaryParent i node label =>
    simp only [applyOp] at hap
    cases hap
    exact childrenInv_transport (pres_add_secondary_parent h i node label) hinv
  | removeSecondaryParent i node =>
    simp only [applyOp] at hap
    cases hap
    exact childrenInv_transport (pres_remove_secondary_parent h i node) hinv
  | setDependencyLabel i node label =>
    simp only [applyOp] at hap
    cases hap
    exact childrenInv_transport (pres_set_dependency_label h i node label) hinv

theorem applyOp_length (h h' : Heap) (op : Op) (hwf : op.Wf h.length)
    (hap : applyOp h op = .ok h') : h'.length = h.length := by
  cases op with
  | setParent i node label =>
    obtain ⟨h1, _, hlen, _⟩ := set_parent_spec h h' i node label hwf.1 hwf.2 hap
    exact hlen
  | addSecondaryParent i node label =>
    simp only [applyOp] at hap
    cases hap
    exact (pres_add_secondary_parent h i node label).1
  | removeSecondaryParent i node =>
    simp only [applyOp] at hap
    cases hap
    exact (pres_remove_secondary_parent h i node).1
  | setDependencyLabel i node label =>
    simp only [applyOp] at hap
    cases hap
    exact (pres_set_dependency_label h i node label).1

theorem childrenInv_runOps : ∀ (ops : List Op) (h h' : Heap), childrenInv h →
    (∀ op ∈ ops, op.Wf h.length) → runOps h ops = .ok h' → childrenInv h'
  | [], h, h', hinv, _, hr => by
    simp only [runOps] at hr
    cases hr
    exact hinv
  | op :: ops, h, h', hinv, hwf, hr => by
    simp only [runOps] at hr
    cases hap : applyOp h op with
    | error e =>
      rw [hap] at hr
      cases hr
    | ok hm =>
      rw [hap] at hr
      have hlen := applyOp_length h hm op (hwf op (List.mem_cons_self op ops)) hap
      exact childrenInv_runOps ops hm h'
        (childrenInv_applyOp h hm op hinv (hwf op (List.mem_cons_self op ops)) hap)
        (fun o ho => by rw [hlen]; exact hwf o (List.mem_cons_of_mem op ho)) hr

/-- C2: parent/child symmetry.  First, the general invariant: any
sequence of relation-mutating operations (on in-range nodes) that
completes without failure preserves the property that every node's
children sequence contains exactly the nodes whose parent is that node,
each exactly once, sorted ascending by `node_id`.  Second, the concrete
scenario: on two detached nodes A (identity 0, id 1) and B (identity 1,
id 2), after `B.set_parent(A, "lbl")`, A's children are exactly `[B]`,
B's parent is A and B's dependency label reads `"lbl"`; after a
subsequent `B.set_parent(None)`, A's children are empty and B's parent
is absent. -/
theorem c2_parent_child_symmetry :
    (∀ (h : Heap) (ops : List Op) (h' : Heap),
        childrenInv h → (∀ op ∈ ops, op.Wf h.length) → runOps h ops = .ok h' →
        childrenInv h') ∧
    (runOps c2heap0 [.setParent 1 (some 0) (some "lbl")]).map
        (fun g => ((nd g 0).children, (nd g 1).parent, get_dependency_label g 1 none))
      = .ok ([1], some 0, some "lbl") ∧
    (runOps c2heap0 [.setParent 1 (some 0) (some "lbl"), .setParent 1 none none]).map
        (fun g => ((nd g 0).children, (nd g 1).parent))
      = .ok ([], none) := by
  refine ⟨fun h ops h' => childrenInv_runOps ops h h', by decide, by decide⟩

/-- C2 witness: the invariant-preservation component applied to the
concrete two-node scenario, together with the heap it produces. -/
theorem c2_parent_child_symmetry_witness :
    runOps c2heap0 [.setParent 1 (some 0) (some "lbl")] = .ok c2heap1 ∧
    childrenInv c2heap1 :=
  ⟨by decide,
   c2_parent_child_symmetry.1 c2heap0 [.setParent 1 (some 0) (some "lbl")] c2heap1
     (by decide) (by decide) (by decide)⟩

/-- C10: `set_parent` deletes the dependency-label entry keyed by the
previous parent unconditionally, so once a node is attached with an
absent (or empty) label — which stores no entry — every subsequent
`set_parent` call on it fails with a KeyError; and an attachment with a
falsy label indeed stores no entry for the new parent. -/
theorem c10_set_parent_keyerror :
    (∀ (h : Heap) (b p : Nat) (target : Option Nat) (lbl : Option String),
        (nd h b).parent = some p → (nd h b).deprels.lookup p = none →
        set_parent h b target lbl = .error "KeyError") ∧
    (∀ (h h' : Heap) (b a : Nat) (lbl : Option String),
        (nd h b).parent = none → labelFalsy lbl = true →
        set_parent h b (some a) lbl = .ok h' →
        (nd h' b).deprels.lookup a = (nd h b).deprels.lookup a) := by
  constructor
  · intro h b p target lbl hpar hlook
    unfold set_parent detach_prev
    rw [hpar]
    dsimp only
    have hdp : (nd (modifyNode h p
        (fun n => { n with children := bisect_remove n.children b })) b).deprels
        = (nd h b).deprels :=
      deprels_modifyNode h p (fun n => { n with children := bisect_remove n.children b })
        (fun n => rfl) b
    rw [hdp, dictDel_eq_error _ p hlook]
  · intro h h' b a lbl hpar hfalsy hsp
    unfold set_parent detach_prev at hsp
    rw [hpar] at hsp
    dsimp only at hsp
    set g2 := modifyNode h b (fun n => { n with parent := some a }) with hg2
    set g3 := modifyNode g2 a
      (fun n => { n with children := insort_right (key g2) n.children b }) with hg3
    rw [sdl_falsy g3 b a lbl hfalsy] at hsp
    have hEq : g3 = h' := Except.ok.inj hsp
    subst hEq
    have hc1 : (nd g3 b).deprels = (nd g2 b).deprels :=
      deprels_modifyNode g2 a
        (fun n => { n with children := insort_right (key g2) n.children b })
        (fun n => rfl) b
    have hc2 : (nd g2 b).deprels = (nd h b).deprels :=
      deprels_modifyNode h b (fun n => { n with parent := some a }) (fun n => rfl) b
    rw [hc1, hc2]

/-- C10 witness: attaching B (identity 1) to A (identity 0) with no
label succeeds but stores no label entry, and the subsequent detach
attempt fails with a KeyError. -/
theorem c10_set_parent_keyerror_witness :
    set_parent c2heap0 1 (some 0) none = .ok c10heap1 ∧
    (nd c10heap1 1).deprels.lookup 0 = none ∧
    set_parent c10heap1 1 none none = .error "KeyError" :=
  ⟨by decide, by decide,
   c10_set_parent_keyerror.1 c10heap1 1 0 none none (by decide) (by decide)⟩

theorem lookup_none_of_forbidden {β : Type} (l : String) (d : List (String × β))
    (hl : ∀ e ∈ d, e.1 ≠ l) : d.lookup l = none := by
  induction d with
  | nil => rfl
  | cons e t ih =>
    obtain ⟨k, v⟩ := e
    have hbeq : (l == k) = false :=
      beq_eq_false_iff_ne.mpr (fun hc => (hl (k, v) (List.mem_cons_self _ _)) hc.symm)
    simp only [List.lookup, hbeq]
    exact ih (fun e he => hl e (List.mem_cons_of_mem _ he))

theorem get_label_last (m : ModelV) (hne : m.labels ≠ []) :
    get_label m (-1) = .ok (m.labels.getLast hne) := by
  have hlen : 0 < m.labels.length := List.length_pos.mpr hne
  unfold get_label pyListGet
  rw [if_neg (by norm_num)]
  have hc : 0 ≤ (m.labels.length : Int) + (-1) ∧
      ((m.labels.length : Int) + (-1)).toNat < m.labels.length := by omega
  rw [dif_pos hc]
  have hidx : (((m.labels.length : Int) + (-1)).toNat) = m.labels.length - 1 := by omega
  rw [List.getLast_eq_get]
  exact congrArg Except.ok (congrArg m.labels.get (Fin.ext hidx))

/-- C9: `-1` is exactly the sentinel `get_label_index` answers for an
unknown label, and on a non-empty vocabulary `get_label(-1)` does not
fail: Python negative list indexing makes it return the last — most
recently added — label; in particular right after a fresh
`add_label l`, `get_label(-1)` answers `l`. -/
theorem c9_get_label_negative_index (m : ModelV) (hne : m.labels ≠ []) :
    get_label m (-1) = .ok (m.labels.getLast hne) ∧
    (∀ l, (∀ e ∈ m.index_map, e.1 ≠ l) → get_label_index m l = -1) ∧
    (∀ l, get_label_index m l = -1 → get_label (add_label m l).2 (-1) = .ok l) := by
  refine ⟨get_label_last m hne, ?_, ?_⟩
  · intro l hl
    rw [get_label_index, lookup_none_of_forbidden l m.index_map hl]
    rfl
  · intro l hidx
    have hne2 : (ModelV.mk (m.index_map ++ [(l, (m.labels.length : Int))])
        (m.labels ++ [l])).labels ≠ [] := by simp
    have hstep : (add_label m l).2
        = ModelV.mk (m.index_map ++ [(l, (m.labels.length : Int))]) (m.labels ++ [l]) := by
      unfold add_label
      rw [hidx, if_pos (by norm_num)]
    rw [hstep, get_label_last _ hne2]
    exact congrArg Except.ok (List.getLast_append_singleton (a := l) m.labels)

/-- C9 witness: on a concrete two-label vocabulary, `get_label(-1)`
silently aliases the most recent label, an unknown label looks up to
-1, and after adding a third label `get_label(-1)` answers it. -/
theorem c9_get_label_negative_index_witness :
    get_label c9model (-1) = .ok "b" ∧
    get_label_index c9model "zz" = -1 ∧
    get_label (add_label c9model "c").2 (-1) = .ok "c" := by
  have h := c9_get_label_negative_index c9model (by decide)
  refine ⟨?_, h.2.1 "zz" (by decide), h.2.2 "c" (by decide)⟩
  rw [h.1]
  decide

theorem unzip2_ok {α β : Type} (l : List (α × β)) (hl : l ≠ []) :
    unzip2 l = .ok (l.map Prod.fst, l.map Prod.snd) := by
  cases l with
  | nil => exact absurd rfl hl
  | cons a t => simp [unzip2, List.unzip_eq_map]

theorem addLabels_append (m : ModelV) (l1 l2 : List String) :
    addLabels m (l1 ++ l2)
      = ((addLabels (addLabels m l1).1 l2).1,
         (addLabels m l1).2 ++ (addLabels (addLabels m l1).1 l2).2) := by
  induction l1 generalizing m with
  | nil => simp [addLabels]
  | cons y ys ih =>
    simp only [List.cons_append, addLabels, List.append_eq, ih]

theorem collectXYs_ok (cs : List (List (List Int × String))) :
    ∀ (m : ModelV), (∀ c ∈ cs, c ≠ []) →
    collectXYs m cs
      = .ok (cs.flatten.map Prod.fst,
             (addLabels m (cs.flatten.map Prod.snd)).2,
             (addLabels m (cs.flatten.map Prod.snd)).1) := by
  induction cs with
  | nil =>
    intro m _
    simp [collectXYs, addLabels]
  | cons c cs ih =>
    intro m hc
    have hcne : c ≠ [] := hc c (List.mem_cons_self _ _)
    rw [collectXYs, unzip2_ok c hcne]
    dsimp only
    rw [ih (addLabels m (c.map Prod.snd)).1 (fun d hd => hc d (List.mem_cons_of_mem _ hd))]
    dsimp only
    simp only [List.flatten_cons, List.map_append, addLabels_append]

theorem chunks_flatten {σ : Type} (l : List σ) (size : Nat) (k : Nat) :
    ((List.range k).map
        (fun i => pySlice l (i * size) (min ((i + 1) * size) l.length))).flatten
      = l.take (min (k * size) l.length) := by
  induction k with
  | zero => simp
  | succ k ih =>
    rw [List.range_succ, List.map_append, List.flatten_append, ih]
    simp only [List.map_cons, List.map_nil, List.flatten_cons, List.flatten_nil,
      List.append_nil]
    by_cases hk : l.length ≤ k * size
    · have hmul : k * size ≤ (k + 1) * size := Nat.mul_le_mul_right size (by omega)
      have h1 : min (k * size) l.length = l.length := by omega
      have h2 : min ((k + 1) * size) l.length = l.length := by omega
      rw [h1, h2, List.take_length, pySlice, List.drop_eq_nil_of_le hk]
      simp
    · push_neg at hk
      have h1 : min (k * size) l.length = k * size := by omega
      rw [h1, pySlice, ← List.take_add]
      have hmul : k * size ≤ (k + 1) * size := Nat.mul_le_mul_right size (by omega)
      congr 1
      omega

theorem ceilDiv_cov (n t : Nat) (ht : 1 ≤ t) : n ≤ t * ceilDiv n t := by
  unfold ceilDiv
  have hdm := Nat.div_add_mod (n + t - 1) t
  have hmod : (n + t - 1) % t < t := Nat.mod_lt _ (by omega)
  omega

theorem chunk_ne_nil {σ : Type} (l : List σ) (size i : Nat) (hb : i * size < l.length)
    (hsz : 1 ≤ size) : pySlice l (i * size) (min ((i + 1) * size) l.length) ≠ [] := by
  have hlen : (pySlice l (i * size) (min ((i + 1) * size) l.length)).length
      = min (min ((i + 1) * size) l.length - i * size) (l.length - i * size) := by
    rw [pySlice, List.length_take, List.length_drop]
  apply List.ne_nil_of_length_pos
  rw [hlen]
  have hmul : (i + 1) * size = i * size + size := Nat.succ_mul i size
  omega

/-- C4 (amended): parallel and sequential extraction agree whenever
every one of the `num_threads` contiguous chunks is non-empty (in
particular for any positive thread count with
`(num_threads - 1) * ceil(n / num_threads) < n`); when some chunk is
empty the parallel path instead fails while unpacking that chunk's
empty result (see the counterexample). -/
theorem c4_train_instances_equiv {σ : Type} (xf : σ → List Int) (gold : σ → String)
    (m : ModelV) (states : List σ) (t : Nat) (ht : 1 ≤ t) (hne : states ≠ [])
    (hlast : (t - 1) * ceilDiv states.length t < states.length) :
    train_instances xf gold m states t = train_instances xf gold m states 1 := by
  by_cases ht1 : t = 1
  · rw [ht1]
  · have hnpos : 0 < states.length := List.length_pos.mpr hne
    have hsz : 1 ≤ ceilDiv states.length t := by
      unfold ceilDiv
      exact (Nat.le_div_iff_mul_le (by omega)).mpr (by omega)
    unfold train_instances
    rw [if_neg ht1, if_pos rfl]
    have hchunks : ∀ c ∈ (List.range t).map (fun i =>
        instancesOf xf gold states (i * ceilDiv states.length t)
          (min ((i + 1) * ceilDiv states.length t) states.length)), c ≠ [] := by
      intro c hcmem
      rw [List.mem_map] at hcmem
      obtain ⟨i, hi, rfl⟩ := hcmem
      rw [List.mem_range] at hi
      have hb : i * ceilDiv states.length t < states.length := by
        have hmono : i * ceilDiv states.length t ≤ (t - 1) * ceilDiv states.length t :=
          Nat.mul_le_mul_right _ (by omega)
        omega
      unfold instancesOf
      rw [Ne, List.map_eq_nil_iff]
      exact chunk_ne_nil states (ceilDiv states.length t) i hb hsz
    rw [collectXYs_ok _ m hchunks]
    have hmapmap : (List.range t).map (fun i =>
        instancesOf xf gold states (i * ceilDiv states.length t)
          (min ((i + 1) * ceilDiv states.length t) states.length))
        = ((List.range t).map (fun i => pySlice states (i * ceilDiv states.length t)
            (min ((i + 1) * ceilDiv states.length t) states.length))).map
          (List.map (fun s => (xf s, gold s))) := by
      rw [List.map_map]
      rfl
    have hflat : ((List.range t).map (fun i =>
        instancesOf xf gold states (i * ceilDiv states.length t)
          (min ((i + 1) * ceilDiv states.length t) states.length))).flatten
        = states.map (fun s => (xf s, gold s)) := by
      rw [hmapmap, ← List.map_flatten, chunks_flatten states (ceilDiv states.length t) t]
      have hcov : states.length ≤ t * ceilDiv states.length t := ceilDiv_cov states.length t ht
      have hmin : min (t * ceilDiv states.length t) states.length = states.length := by omega
      rw [hmin, List.take_length]
    rw [hflat]
    unfold train_instances_seq
    have hfull : instancesOf xf gold states 0 states.length
        = states.map (fun s => (xf s, gold s)) := by
      unfold instancesOf pySlice
      rw [List.drop_zero, Nat.sub_zero, List.take_length]
    rw [hfull, unzip2_ok (states.map (fun s => (xf s, gold s)))
      (by rw [Ne, List.map_eq_nil_iff]; exact hne)]

/-- C4 counterexample: with a single state, the sequential path
succeeds, but the 4-thread path dies with a ValueError while unpacking
the second (empty) chunk, so the two paths do not produce identical
results for every fixed list of states. -/
theorem c4_counterexample :
    train_instances c4xf c4gold c4m0 [7] 1
      = .ok ([[7]], [0], { index_map := [("g", 0)], labels := ["g"] }) ∧
    train_instances c4xf c4gold c4m0 [7] 4
      = .error "ValueError: not enough values to unpack" ∧
    train_instances c4xf c4gold c4m0 [7] 4 ≠ train_instances c4xf c4gold c4m0 [7] 1 := by
  decide

/-- C4 witness: with 8 states and 4 threads every chunk has two states,
and the two paths agree. -/
theorem c4_train_instances_equiv_witness :
    train_instances c4xf c4gold c4m0 [1, 2, 3, 4, 5, 6, 7, 8] 4
      = train_instances c4xf c4gold c4m0 [1, 2, 3, 4, 5, 6, 7, 8] 1 :=
  c4_train_instances_equiv c4xf c4gold c4m0 [1, 2, 3, 4, 5, 6, 7, 8] 4
    (by decide) (by decide) (by decide)

theorem getD_map_lt {α β : Type} [Inhabited α] [Inhabited β] (f : α → β) :
    ∀ (l : List α) (i : Nat), i < l.length →
      (l.map f).getD i default = f (l.getD i default)
  | _ :: _, 0, _ => rfl
  | _ :: t, i + 1, hi => getD_map_lt f t i (Nat.lt_of_succ_lt_succ hi)
  | [], i, hi => absurd hi (by simp)

theorem stepAll_spec {σ : Type} [Inhabited σ] (ops : EvalOps σ) :
    ∀ (active : List Nat) (pool : List σ), active.Nodup →
      (∀ i ∈ active, i < pool.length) →
      (stepAll ops pool active).length = pool.length ∧
      (∀ j, (stepAll ops pool active).getD j default
        = if j ∈ active then ops.step (pool.getD j default) else pool.getD j default) := by
  intro active
  induction active with
  | nil =>
    intro pool _ _
    exact ⟨rfl, fun j => by simp [stepAll]⟩
  | cons a rest ih =>
    intro pool hnd hbound
    obtain ⟨hna, hndr⟩ := List.nodup_cons.mp hnd
    have hlen : (pool.set a (ops.step (pool.getD a default))).length = pool.length :=
      List.length_set pool a _
    obtain ⟨ihlen, ihget⟩ := ih (pool.set a (ops.step (pool.getD a default))) hndr
      (fun i hi => by rw [hlen]; exact hbound i (List.mem_cons_of_mem a hi))
    refine ⟨by rw [stepAll, ihlen, hlen], fun j => ?_⟩
    rw [stepAll, ihget j]
    by_cases hjr : j ∈ rest
    · rw [if_pos hjr, if_pos (List.mem_cons_of_mem a hjr)]
      have hja : j ≠ a := fun hc => hna (hc ▸ hjr)
      rw [getD_set_ne pool a j _ default (fun hc => hja hc.symm)]
    · rw [if_neg hjr]
      by_cases hja : j = a
      · subst hja
        rw [if_pos (List.mem_cons_self j rest)]
        exact getD_set_self pool j _ default (hbound j (List.mem_cons_self j rest))
      · rw [if_neg (fun hc => (List.mem_cons.mp hc).elim hja hjr)]
        exact getD_set_ne pool a j _ default (fun hc => hja hc.symm)

theorem runToTerm_terminate {σ : Type} (ops : EvalOps σ) :
    ∀ (fuel : Nat) (s s' : σ), runToTerm ops fuel s = some s' →
      ops.terminate s' = true
  | 0, s, s', h => by
    rw [runToTerm] at h
    cases h
  | fuel + 1, s, s', h => by
    rw [runToTerm] at h
    by_cases ht : ops.terminate (ops.step s)
    · rw [if_pos ht] at h
      cases h
      exact ht
    · rw [if_neg ht] at h
      exact runToTerm_terminate ops fuel _ s' h

theorem drive_spec {σ : Type} [Inhabited σ] (ops : EvalOps σ) :
    ∀ (fuel : Nat) (pool : List σ) (active : List Nat) (pool' : List σ),
      active.Nodup → (∀ i ∈ active, i < pool.length) →
      drive ops fuel pool active = some pool' →
      pool'.length = pool.length ∧
      (∀ i ∈ active, runToTerm ops fuel (pool.getD i default)
        = some (pool'.getD i default)) ∧
      (∀ i, i ∉ active → pool'.getD i default = pool.getD i default)
  | 0, pool, active, pool', hnd, hb, hdr => by
    rw [drive] at hdr
    by_cases hae : active.isEmpty
    · rw [if_pos hae] at hdr
      cases hdr
      have hanil : active = [] := List.isEmpty_iff.mp hae
      subst hanil
      exact ⟨rfl, fun i hi => absurd hi (List.not_mem_nil i), fun i _ => rfl⟩
    · rw [if_neg hae] at hdr
      cases hdr
  | fuel + 1, pool, active, pool', hnd, hb, hdr => by
    rw [drive] at hdr
    by_cases hae : active.isEmpty
    · rw [if_pos hae] at hdr
      cases hdr
      have hanil : active = [] := List.isEmpty_iff.mp hae
      subst hanil
      exact ⟨rfl, fun i hi => absurd hi (List.not_mem_nil i), fun i _ => rfl⟩
    · rw [if_neg hae] at hdr
      obtain ⟨salen, saget⟩ := stepAll_spec ops active pool hnd hb
      have hnd1 : (active.filter
          (fun i => ! ops.terminate ((stepAll ops pool active).getD i default))).Nodup :=
        hnd.filter _
      have hb1 : ∀ i ∈ active.filter
          (fun i => ! ops.terminate ((stepAll ops pool active).getD i default)),
          i < (stepAll ops pool active).length := fun i hi => by
        rw [salen]
        exact hb i (List.mem_of_mem_filter hi)
      obtain ⟨ihlen, ihrun, ihsame⟩ :=
        drive_spec ops fuel (stepAll ops pool active) _ pool' hnd1 hb1 hdr
      refine ⟨by rw [ihlen, salen], ?_, ?_⟩
      · intro i hi
        have hstep : (stepAll ops pool active).getD i default
            = ops.step (pool.getD i default) := by
          rw [saget i, if_pos hi]
        rw [runToTerm]
        by_cases hterm : ops.terminate (ops.step (pool.getD i default))
        · rw [if_pos hterm]
          have hni1 : i ∉ active.filter
              (fun i => ! ops.terminate ((stepAll ops pool active).getD i default)) := by
            intro hc
            have hpf := List.of_mem_filter hc
            rw [hstep, hterm] at hpf
            exact Bool.noConfusion hpf
          rw [ihsame i hni1, hstep]
        · rw [if_neg hterm]
          have hi1 : i ∈ active.filter
              (fun i => ! ops.terminate ((stepAll ops pool active).getD i default)) := by
            apply List.mem_filter.mpr
            refine ⟨hi, ?_⟩
            rw [hstep, Bool.eq_false_iff.mpr hterm]
            rfl
          have hres := ihrun i hi1
          rw [hstep] at hres
          exact hres
      · intro i hni
        have hni1 : i ∉ active.filter
            (fun i => ! ops.terminate ((stepAll ops pool active).getD i default)) :=
          fun hc => hni (List.mem_of_mem_filter hc)
        rw [ihsame i hni1, saget i, if_neg hni]

theorem scoring_fold {σ : Type} (ops : EvalOps σ) :
    ∀ (l : List σ) (c t : Int) (a : ℚ),
      (l.foldl (fun p s => ((p.1.1 + ops.corr s, p.1.2 + ops.tot s),
        statsFrac (p.1.1 + ops.corr s) (p.1.2 + ops.tot s))) ((c, t), a))
      = ((c + (l.map ops.corr).sum, t + (l.map ops.tot).sum),
         if l.isEmpty then a
         else statsFrac (c + (l.map ops.corr).sum) (t + (l.map ops.tot).sum))
  | [], c, t, a => by simp
  | s :: r, c, t, a => by
    rw [List.foldl_cons, scoring_fold ops r (c + ops.corr s) (t + ops.tot s) _]
    cases r with
    | nil => simp [statsFrac]
    | cons s2 r2 => simp [add_assoc]

theorem scoring_eq {σ : Type} (ops : EvalOps σ) (l : List σ) :
    scoring ops l = statsFrac (l.map ops.corr).sum (l.map ops.tot).sum := by
  unfold scoring
  rw [scoring_fold]
  cases l with
  | nil => simp [statsFrac]
  | cons s r => simp

/-- C3: whenever `evaluate` returns a value, the driven states — one
per input state, obtained from its reset configuration by repeated
`process` applications until `terminate` first holds, never reset
inside the loop — are all terminated; the result is the scoring fold's
accumulator after the last original state's `eval(stats)` contribution
in input order, and it equals the final cumulative correct/total ratio
over all states. -/
theorem c3_evaluate {σ : Type} [Inhabited σ] (ops : EvalOps σ) (fuel : Nat)
    (states : List σ) (r : ℚ) (heval : evaluateM ops fuel states = some r) :
    ∃ finals : List σ,
      finals.length = states.length ∧
      (∀ i, i < states.length →
        runToTerm ops fuel (ops.reset (states.getD i default))
          = some (finals.getD i default)) ∧
      (∀ i, i < states.length → ops.terminate (finals.getD i default) = true) ∧
      scoring ops finals = r ∧
      r = statsFrac (finals.map ops.corr).sum (finals.map ops.tot).sum := by
  unfold evaluateM at heval
  cases hdr : drive ops fuel (states.map ops.reset) (List.range states.length) with
  | none =>
    rw [hdr] at heval
    cases heval
  | some pool' =>
    rw [hdr] at heval
    cases heval
    obtain ⟨hlen, hrun, _⟩ := drive_spec ops fuel (states.map ops.reset)
      (List.range states.length) pool' (List.nodup_range _)
      (fun i hi => by rw [List.length_map]; exact List.mem_range.mp hi) hdr
    have hrt : ∀ i, i < states.length →
        runToTerm ops fuel (ops.reset (states.getD i default))
          = some (pool'.getD i default) := by
      intro i hi
      have hres := hrun i (List.mem_range.mpr hi)
      rw [getD_map_lt ops.reset states i hi] at hres
      exact hres
    refine ⟨pool', by rw [hlen, List.length_map], hrt, ?_, rfl, scoring_eq ops pool'⟩
    intro i hi
    exact runToTerm_terminate ops fuel _ _ (hrt i hi)

/-- C3 witness: two unit-counter states driven to termination; the
returned value is the cumulative ratio 2/2 = 1. -/
theorem c3_evaluate_witness :
    ∃ finals : List Nat,
      finals.length = ([0, 5] : List Nat).length ∧
      (∀ i, i < ([0, 5] : List Nat).length →
        runToTerm c3ops 5 (c3ops.reset (([0, 5] : List Nat).getD i default))
          = some (finals.getD i default)) ∧
      (∀ i, i < ([0, 5] : List Nat).length →
        c3ops.terminate (finals.getD i default) = true) ∧
      scoring c3ops finals = 1 ∧
      (1 : ℚ) = statsFrac (finals.map c3ops.corr).sum (finals.map c3ops.tot).sum :=
  c3_evaluate c3ops 5 [0, 5] 1 (by decide)

/-- C1 (evaluating the code at the failing input): the three-token
sentence with one secondary head renders to the expected nine-field
tab-separated text, but re-parsing that text with the matching column
configuration fails with the NameError raised by the undefined global
`NLPArc` in the head-resolution loop of `tsv_to_graph`, so the round
trip cannot reproduce the graph for any sentence with a configured
head-id column. -/
theorem c1_roundtrip_namerror :
    bindE (runOps c1g0 c1ops) graph_str = .ok c1text ∧
    tsv_to_graph c1cfg (toRows c1text)
      = .error "NameError: name NLPArc is not defined" := by
  exact ⟨by decide, by decide⟩

/-- C7: a node with falsy feats, no parent and no secondary parents
renders its head-id, dependency-label and secondary-heads fields (the
sixth, seventh and eighth of the nine) as the blank marker `_`; and a
row whose configured features column holds `_` builds a node whose
feature mapping is Python `None` — no entries at all, in particular no
literal `_` entry. -/
theorem c7_blank_field_fidelity :
    (∀ (h : Heap) (i : Nat),
        ((nd h i).feats = none ∨ (nd h i).feats = some []) →
        (nd h i).parent = none →
        (nd h i).secondary_parents = [] →
        (node_fields h i).map (fun fs => (fs.getD 5 "", fs.getD 6 "", fs.getD 7 ""))
          = .ok (BLANK, BLANK, BLANK)) ∧
    (∀ (cfg : TSVCfg) (row : List String) (i : Nat) (node : NLPNode),
        0 ≤ cfg.feats_index →
        pyRowGet row cfg.feats_index = .ok BLANK →
        init_node cfg row i = .ok node →
        node.feats = none ∧ node.feats.getD [] = [] ∧
          ∀ v, (BLANK, v) ∉ node.feats.getD []) := by
  constructor
  · intro h i _ hpar hsp
    unfold node_fields
    rw [hsp]
    simp only [sheadsList, get_dependency_label, hpar, List.isEmpty_nil]
    rfl
  · intro cfg row i node hfi hrow hinit
    have hgf : get_feats cfg row = .ok none := by
      unfold get_feats
      rw [if_pos hfi, hrow]
      dsimp only
      rw [if_pos rfl]
    unfold init_node at hinit
    cases hw : get_field row cfg.word_index with
    | error e => rw [hw] at hinit; cases hinit
    | ok w =>
      rw [hw] at hinit
      cases hl : get_field row cfg.lemma_index with
      | error e => rw [hl] at hinit; cases hinit
      | ok lm =>
        rw [hl] at hinit
        cases hp : get_field row cfg.pos_index with
        | error e => rw [hp] at hinit; cases hinit
        | ok ps =>
          rw [hp] at hinit
          cases hn : get_field row cfg.nament_index with
          | error e => rw [hn] at hinit; cases hinit
          | ok nm =>
            rw [hn, hgf] at hinit
            cases hinit
            exact ⟨rfl, rfl, by simp⟩

/-- C7 witness: the render part on a default childless token, and the
parse part on the concrete row `["x", "_"]` with a feats column at
index 1. -/
theorem c7_blank_field_fidelity_witness :
    (node_fields c7heap 0).map (fun fs => (fs.getD 5 "", fs.getD 6 "", fs.getD 7 ""))
      = .ok (BLANK, BLANK, BLANK) ∧
    init_node c7cfg c7row 0 = .ok c7node ∧
    c7node.feats = none :=
  ⟨c7_blank_field_fidelity.1 c7heap 0 (Or.inr (by decide)) (by decide) (by decide),
   by decide,
   (c7_blank_field_fidelity.2 c7cfg c7row 0 c7node (by decide) (by decide) (by decide)).1⟩

end Elit
